import Mathlib

set_option autoImplicit false

namespace OhSee

/- ===================================================================
   Shallow embedding of the shift-tolerant pixel diff
   (src/src/analyze/pixel.ts, strip-aligned version).

   Pixel buffers are modelled as total functions `Nat → Nat` giving the
   RGBA byte at each index; all accesses performed by the embedded code
   are within `width * height * 4`, so the values beyond that range are
   irrelevant.  JavaScript numbers are modelled by `Nat`/`Int`/`ℚ`; the
   only float peculiarity that matters to the claims is `0 / 0 = NaN`,
   modelled by an `Option ℚ` result (`none` = NaN).  `Infinity` (the
   initial best-SAD and the degenerate-strip score) is modelled by `⊤`
   in `WithTop ℚ`.
   =================================================================== -/

/-- A decoded bitmap: width, height and a row-major RGBA byte buffer. -/
structure Bitmap where
  width : Nat
  height : Nat
  data : Nat → Nat

/-- Alignment-search constants of src/src/analyze/pixel.ts (lines 91-99). -/
def STRIP_HEIGHT : Nat := 400

/-- Maximum vertical search shift (pixel.ts line 95). -/
def MAX_SHIFT : Nat := 300

/-- Coarse horizontal sampling step for the SAD (pixel.ts line 98). -/
def COARSE_X : Nat := 16

/-- Coarse vertical sampling step for the SAD (pixel.ts line 99). -/
def COARSE_Y : Nat := 8

/-- `padToSize` (pixel.ts lines 105-111): a `targetWidth × targetHeight`
canvas pre-filled with opaque white (byte 255), with the source bitmap
copied at the top-left origin (`PNG.bitblt` copies the
`min source target` region in each dimension). -/
def padToSize (png : Bitmap) (targetWidth targetHeight : Nat) : Bitmap :=
  { width := targetWidth
    height := targetHeight
    data := fun i =>
      let y := i / (4 * targetWidth)
      let r := i % (4 * targetWidth)
      let x := r / 4
      let c := r % 4
      if x < min png.width targetWidth ∧ y < min png.height targetHeight then
        png.data ((y * png.width + x) * 4 + c)
      else 255 }

/-- The index sequence `0, step, 2*step, …` strictly below `n`: the
values taken by a JavaScript loop `for (k = 0; k < n; k += step)`.
Only a faithful model for `step > 0` (for `step = 0` the loop would
not terminate). -/
def stepList (n step : Nat) : List Nat :=
  (List.range n).filter (fun k => k % step == 0)

/-- The absolute RGB difference contributed by one coarse sample of the
SAD loop (pixel.ts lines 139-144). -/
def sampleDiff (aData : Nat → Nat) (aWidth aY : Nat)
    (bData : Nat → Nat) (bWidth bY dy x : Nat) : Nat :=
  let ai := ((aY + dy) * aWidth + x) * 4
  let bi := ((bY + dy) * bWidth + x) * 4
  ((aData ai : Int) - (bData bi : Int)).natAbs +
  ((aData (ai + 1) : Int) - (bData (bi + 1) : Int)).natAbs +
  ((aData (ai + 2) : Int) - (bData (bi + 2) : Int)).natAbs

/-- `computeStripSAD` (pixel.ts lines 126-148): mean absolute difference
of the RGB channels of two strips, sampled on a coarse grid.  Returns
`⊤` (JS `Infinity`) when the strip degenerates (`actualH <= 0`) or no
sample is taken (`count == 0`). -/
def computeStripSAD (aData : Nat → Nat) (aWidth aY : Nat)
    (bData : Nat → Nat) (bWidth bY : Nat)
    (stripH : Int) (maxH : Nat) (cx cy : Nat) : WithTop ℚ :=
  let actualH : Int := min stripH (min ((maxH : Int) - aY) ((maxH : Int) - bY))
  if actualH ≤ 0 then ⊤ else
    let w := min aWidth bWidth
    let rows := stepList actualH.toNat cy
    let cols := stepList w cx
    let sum : Nat :=
      (rows.map (fun dy =>
        (cols.map (fun x => sampleDiff aData aWidth aY bData bWidth bY dy x)).sum)).sum
    let count : Nat := 3 * rows.length * cols.length
    if count = 0 then ⊤ else (((sum : ℚ) / (count : ℚ) : ℚ) : WithTop ℚ)

/-- The candidate offsets `-MAX_SHIFT … +MAX_SHIFT` in ascending scan
order (pixel.ts line 170). -/
def offsetRange (ms : Nat) : List Int :=
  (List.range (2 * ms + 1)).map (fun (k : Nat) => (k : Int) - (ms : Int))

/-- The in-bounds guard of the offset loop (pixel.ts line 172): offset
`dy` is a candidate when the region `[stripY+dy, stripY+dy+stripH)`
fits inside the second image. -/
def inBoundsOffset (afterH stripY : Nat) (stripH dy : Int) : Bool :=
  0 ≤ (stripY : Int) + dy && (stripY : Int) + dy + stripH ≤ (afterH : Int)

/-- The strip height used by `findBestOffset` (pixel.ts line 166). -/
def searchStripH (beforeH stripY sh : Nat) : Int :=
  min (sh : Int) ((beforeH : Int) - (stripY : Int))

/-- The SAD score of candidate offset `dy` (pixel.ts lines 173-177). -/
def offsetSAD (beforeData : Nat → Nat) (width beforeH : Nat)
    (afterData : Nat → Nat) (afterH stripY sh cx cy : Nat) (dy : Int) : WithTop ℚ :=
  computeStripSAD beforeData width stripY afterData width ((stripY : Int) + dy).toNat
    (searchStripH beforeH stripY sh) (min beforeH afterH) cx cy

/-- The body of the offset-search loop (pixel.ts lines 170-182): state
`(bestOffset, bestSAD)`, replaced only on a strictly lower score of an
in-bounds candidate. -/
def bestFold (cand : Int → Bool) (sad : Int → WithTop ℚ) :
    List Int → (Int × WithTop ℚ) → (Int × WithTop ℚ)
  | [], s => s
  | d :: ds, s =>
      bestFold cand sad ds (if cand d ∧ sad d < s.2 then (d, sad d) else s)

/-- `findBestOffset` (pixel.ts lines 161-184) together with its final
best score. -/
def findBestPair (beforeData : Nat → Nat) (width beforeH : Nat)
    (afterData : Nat → Nat) (afterH stripY : Nat)
    (sh ms cx cy : Nat) : Int × WithTop ℚ :=
  bestFold
    (fun dy => inBoundsOffset afterH stripY (searchStripH beforeH stripY sh) dy)
    (fun dy => offsetSAD beforeData width beforeH afterData afterH stripY sh cx cy dy)
    (offsetRange ms) (0, ⊤)

/-- `findBestOffset` (pixel.ts lines 161-184): the selected offset. -/
def findBestOffset (beforeData : Nat → Nat) (width beforeH : Nat)
    (afterData : Nat → Nat) (afterH stripY : Nat)
    (sh ms cx cy : Nat) : Int :=
  (findBestPair beforeData width beforeH afterData afterH stripY sh ms cx cy).1

/-- `getStripBuffer` (pixel.ts lines 117-120): the zero-copy view of a
horizontal strip, as an index translation. -/
def getStripBuffer (data : Nat → Nat) (width y : Nat) : Nat → Nat :=
  fun i => data (y * width * 4 + i)

/-- The 8-neighbourhood offsets used by the anti-aliasing check. -/
def neighborOffsets : List (Int × Int) :=
  [(-1, -1), (0, -1), (1, -1), (-1, 0), (1, 0), (-1, 1), (0, 1), (1, 1)]

/-- Modelled from the spec: the per-pixel comparator is delegated by the
source to the external `pixelmatch` library, which is not part of this
repository's sources.  Spec §4.3 describes it: the normalized RGB
channel distance of a pixel pair, here the mean absolute channel
difference scaled to `[0, 1]`. -/
def pixelDist (aData bData : Nat → Nat) (width x y : Nat) : ℚ :=
  let i := (y * width + x) * 4
  ((((aData i : Int) - (bData i : Int)).natAbs +
    ((aData (i + 1) : Int) - (bData (i + 1) : Int)).natAbs +
    ((aData (i + 2) : Int) - (bData (i + 2) : Int)).natAbs : Nat) : ℚ) / 765

/-- Modelled from the spec: §4.3's anti-aliasing suppression treats a
pixel as anti-aliasing noise when it is "surrounded by pixels matching
either source image"; here: every in-bounds 8-neighbour has identical
RGB bytes in both strips. -/
def neighborsMatch (aData bData : Nat → Nat) (width stripH x y : Nat) : Bool :=
  (neighborOffsets.filterMap (fun p =>
      let nx := (x : Int) + p.1
      let ny := (y : Int) + p.2
      if 0 ≤ nx ∧ nx < (width : Int) ∧ 0 ≤ ny ∧ ny < (stripH : Int) then
        some (nx.toNat, ny.toNat)
      else none)).all (fun q =>
    let i := (q.2 * width + q.1) * 4
    aData i == bData i && aData (i + 1) == bData (i + 1) &&
      aData (i + 2) == bData (i + 2))

/-- Modelled from the spec: whether one pixel of an aligned strip pair
is counted as changed, per §4.3 — its normalized channel distance
exceeds the threshold and it is not excluded as anti-aliasing noise
(`aaSuppress` models the source's `includeAA: false`). -/
def pixelChanged (aData bData : Nat → Nat) (width stripH : Nat)
    (threshold : ℚ) (aaSuppress : Bool) (x y : Nat) : Prop :=
  threshold < pixelDist aData bData width x y ∧
    ¬(aaSuppress ∧ neighborsMatch aData bData width stripH x y)

instance (aData bData : Nat → Nat) (width stripH : Nat)
    (threshold : ℚ) (aaSuppress : Bool) (x y : Nat) :
    Decidable (pixelChanged aData bData width stripH threshold aaSuppress x y) :=
  inferInstanceAs (Decidable (_ ∧ _))

/-- Modelled from the spec: §4.3's strip comparator (the `pixelmatch`
call of pixel.ts lines 220-232): the count of changed pixels of one
aligned strip pair. -/
def stripChangedCount (aData bData : Nat → Nat) (width stripH : Nat)
    (threshold : ℚ) (aaSuppress : Bool) : Nat :=
  ((List.range stripH).map (fun y =>
    ((List.range width).map (fun x =>
      if pixelChanged aData bData width stripH threshold aaSuppress x y then 1
      else 0)).sum)).sum

/-- The result record of `analyzePixels` (the fields of `PixelAnalysis`
the analysis computes; the rendered diff image is omitted, no claim
concerns its bytes).  `percentChanged = none` models the JS `NaN`
produced by `0 / 0`. -/
structure PixelAnalysis where
  totalPixels : Nat
  changedPixels : Nat
  percentChanged : Option ℚ
  beforeWidth : Nat
  beforeHeight : Nat
  afterHeight : Nat
  deriving DecidableEq

/-- `analyzePixels` (pixel.ts lines 186-252), parameterized by the
strip height `sh`, maximum shift `ms` and coarse sampling steps
`cx`, `cy` (the source fixes them to the constants above; spec §6
requires them tunable).  Faithful for positive `sh`, `cx`, `cy` (a zero
step would make the corresponding JS loop diverge). -/
def analyzePixels (before after : Bitmap) (sh ms cx cy : Nat) : PixelAnalysis :=
  let maxW := max before.width after.width
  let maxH := max before.height after.height
  let pB := padToSize before maxW maxH
  let pA := padToSize after maxW maxH
  let totalChanged :=
    ((stepList maxH sh).map (fun stripY =>
      let stripH := min sh (maxH - stripY)
      let offset := findBestOffset pB.data maxW maxH pA.data maxH stripY sh ms cx cy
      let alignedAfterY :=
        (max 0 (min ((maxH : Int) - (stripH : Int)) ((stripY : Int) + offset))).toNat
      stripChangedCount (getStripBuffer pB.data maxW stripY)
        (getStripBuffer pA.data maxW alignedAfterY) maxW stripH ((1 : ℚ) / 10) true)).sum
  let totalPixels := maxW * maxH
  { totalPixels := totalPixels
    changedPixels := totalChanged
    percentChanged :=
      if totalPixels = 0 then none
      else some ((totalChanged : ℚ) / (totalPixels : ℚ) * 100)
    beforeWidth := before.width
    beforeHeight := before.height
    afterHeight := after.height }

/- ===================================================================
   Shallow embedding of the CSS extraction pipeline
   (src/src/capture/extract.ts).

   Strings are modelled as `List Char`.  JavaScript's `String.trim` and
   the `\s` regex class are modelled over their ASCII members (space,
   tab, newline, carriage return, vertical tab, form feed); none of the
   claims involve non-ASCII whitespace.  Records
   (`Record<string, string>` and the nested class-style map) are
   modelled as association lists in insertion order, with JS object
   semantics: assigning to an existing key updates it in place,
   assigning to a fresh key appends it.
   =================================================================== -/

/-- ASCII members of JavaScript's whitespace class. -/
def isJsSpace (c : Char) : Bool :=
  c = ' ' || c = '\t' || c = '\n' || c = '\r' || c = '\x0b' || c = '\x0c'

/-- The regex class `[\w-]`: word characters or a hyphen. -/
def isWordDash (c : Char) : Bool :=
  c.isAlpha || c.isDigit || c = '_' || c = '-'

/-- JavaScript `String.trim` (ASCII whitespace). -/
def trimWS (s : List Char) : List Char :=
  ((s.dropWhile isJsSpace).reverse.dropWhile isJsSpace).reverse

/-- JavaScript `String.split(sep)`: `"".split(sep) = [""]`, empty
segments preserved. -/
def splitOn (sep : Char) : List Char → List (List Char)
  | [] => [[]]
  | c :: cs =>
      if c = sep then [] :: splitOn sep cs
      else
        match splitOn sep cs with
        | [] => [[c]]
        | h :: t => (c :: h) :: t

/-- `text.indexOf(sep)` as a split at the first occurrence: the text
before the first separator and the text after it. -/
def splitAtChar (sep : Char) : List Char → Option (List Char × List Char)
  | [] => none
  | c :: cs =>
      if c = sep then some ([], cs)
      else (splitAtChar sep cs).map (fun pr => (c :: pr.1, pr.2))

/-- Whether `p` is a prefix of `s` (JS `String.startsWith`). -/
def hasPfx : List Char → List Char → Bool
  | [], _ => true
  | _ :: _, [] => false
  | p :: ps, c :: cs => p == c && hasPfx ps cs

/-- The brace scan of walkCssRules (extract.ts lines 58-64): the number
of characters consumed from the text following an opening brace until
the matching close brace has been consumed (depth reaches 0) or the
text ends. -/
def findClose : List Char → Nat → Nat
  | [], _ => 0
  | c :: cs, depth =>
      let depth' := if c = '\x7b' then depth + 1 else if c = '\x7d' then depth - 1 else depth
      1 + (if depth' = 0 then 0 else findClose cs depth')

/-- The text after the first comment terminator `*/`, when one exists. -/
def dropComment : List Char → Option (List Char)
  | [] => none
  | c :: cs =>
      match cs with
      | [] => none
      | d :: r => if c = '*' ∧ d = '/' then some r else dropComment cs

theorem dropComment_length : ∀ {t r : List Char}, dropComment t = some r → r.length < t.length := by
  intro t
  induction t with
  | nil => intro r h; cases h
  | cons c cs ih =>
      intro r h
      cases cs with
      | nil => simp [dropComment] at h
      | cons d r2 =>
          unfold dropComment at h
          dsimp only at h
          by_cases hc : c = '*' ∧ d = '/'
          · rw [if_pos hc] at h
            cases h
            simp only [List.length_cons]
            omega
          · rw [if_neg hc] at h
            have := ih h
            simp only [List.length_cons] at this ⊢
            omega

/-- Fueled driver of the comment strip; the fuel only bounds the
recursion depth, which never exceeds the text length. -/
def stripCommentsF : Nat → List Char → List Char
  | 0, _ => []
  | fuel + 1, t =>
      match t with
      | [] => []
      | c :: cs =>
          if c = '/' ∧ cs.head? = some '*' then
            match dropComment cs.tail with
            | some rest => stripCommentsF fuel rest
            | none => c :: cs
          else c :: stripCommentsF fuel cs

/-- The block-comment strip of extract.ts line 119
(`replace(/\x2f\x2a[\s\S]*?\x2a\x2f/g, '')`): each `/*` with a later
`*/` is removed (lazily, up to the first terminator); a `/*` with no
terminator is left in place, as the regex cannot match it. -/
def stripComments (t : List Char) : List Char := stripCommentsF t.length t

theorem stripCommentsF_irrel : ∀ (f1 : Nat) (t : List Char) (f2 : Nat),
    t.length ≤ f1 → t.length ≤ f2 → stripCommentsF f1 t = stripCommentsF f2 t := by
  intro f1
  induction f1 with
  | zero =>
      intro t f2 h1 _
      have ht : t = [] := List.eq_nil_of_length_eq_zero (by omega)
      subst ht
      cases f2 <;> rfl
  | succ f ih =>
      intro t f2 h1 h2
      cases f2 with
      | zero =>
          have ht : t = [] := List.eq_nil_of_length_eq_zero (by omega)
          subst ht
          rfl
      | succ g =>
          cases t with
          | nil => rfl
          | cons c cs =>
              show (if c = '/' ∧ cs.head? = some '*' then
                      match dropComment cs.tail with
                      | some rest => stripCommentsF f rest
                      | none => c :: cs
                    else c :: stripCommentsF f cs) =
                  (if c = '/' ∧ cs.head? = some '*' then
                      match dropComment cs.tail with
                      | some rest => stripCommentsF g rest
                      | none => c :: cs
                    else c :: stripCommentsF g cs)
              simp only [List.length_cons] at h1 h2
              by_cases hc : c = '/' ∧ cs.head? = some '*'
              · rw [if_pos hc, if_pos hc]
                match hd : dropComment cs.tail with
                | some rest =>
                    have hr := dropComment_length hd
                    have htl : cs.tail.length ≤ cs.length := by
                      cases cs <;> simp
                    exact ih rest g (by omega) (by omega)
                | none => rfl
              · rw [if_neg hc, if_neg hc]
                rw [ih cs g (by omega) (by omega)]

/-- The one-step unfolding of the comment strip. -/
theorem stripComments_eq (t : List Char) :
    stripComments t =
      match t with
      | [] => []
      | c :: cs =>
          if c = '/' ∧ cs.head? = some '*' then
            match dropComment cs.tail with
            | some rest => stripComments rest
            | none => c :: cs
          else c :: stripComments cs := by
  cases t with
  | nil => rfl
  | cons c cs =>
      show stripCommentsF (cs.length + 1) (c :: cs) = _
      show (if c = '/' ∧ cs.head? = some '*' then
              match dropComment cs.tail with
              | some rest => stripCommentsF cs.length rest
              | none => c :: cs
            else c :: stripCommentsF cs.length cs) = _
      dsimp only
      by_cases hc : c = '/' ∧ cs.head? = some '*'
      · rw [if_pos hc]
        match hd : dropComment cs.tail with
        | some rest =>
            rw [if_pos hc]
            have hr := dropComment_length hd
            have htl : cs.tail.length ≤ cs.length := by
              cases cs <;> simp
            show stripCommentsF cs.length rest = stripCommentsF rest.length rest
            exact stripCommentsF_irrel cs.length rest rest.length (by omega) (by omega)
        | none =>
            rw [if_pos hc]
      · rw [if_neg hc, if_neg hc]
        show c :: stripCommentsF cs.length cs = c :: stripCommentsF cs.length cs
        rfl

theorem splitAtChar_parts {sep : Char} :
    ∀ {t p r : List Char}, splitAtChar sep t = some (p, r) → t.length = p.length + 1 + r.length := by
  intro t
  induction t with
  | nil => intro p r h; cases h
  | cons c cs ih =>
      intro p r h
      unfold splitAtChar at h
      split at h
      · cases h
        simp only [List.length_cons, List.length_nil]
        omega
      · match hsp : splitAtChar sep cs with
        | none => rw [hsp] at h; cases h
        | some (p2, r2) =>
            rw [hsp] at h
            cases h
            have := ih hsp
            simp only [List.length_cons]
            omega

/-- Fueled driver of the rule walk; the fuel only bounds the recursion
depth, which never exceeds the text length. -/
def walkCssRulesF : Nat → List Char → List (List Char × List Char)
  | 0, _ => []
  | fuel + 1, t =>
      match splitAtChar '\x7b' t with
      | none => []
      | some (pre, rest) =>
          let j := findClose rest 1
          let body := rest.take (j - 1)
          let after := rest.drop j
          let sel := trimWS pre
          (if sel.head? = some '@' then walkCssRulesF fuel body else [(sel, body)]) ++
            walkCssRulesF fuel after

/-- `walkCssRules` (extract.ts lines 52-76), with the `onRule` callback
reified as the returned list of (selector, body) pairs in call order:
find the next opening brace, scan to its matching close brace, emit the
(trimmed selector, body) pair — or, when the selector starts with `@`,
recursively re-walk the body — and continue after the block.  Malformed
input makes the scan stop at the end of the text, dropping the final
character from the body exactly as `text.slice(blockStart + 1, j - 1)`
does. -/
def walkCssRules (t : List Char) : List (List Char × List Char) :=
  walkCssRulesF t.length t

theorem walkCssRulesF_irrel : ∀ (f1 : Nat) (t : List Char) (f2 : Nat),
    t.length ≤ f1 → t.length ≤ f2 → walkCssRulesF f1 t = walkCssRulesF f2 t := by
  intro f1
  induction f1 with
  | zero =>
      intro t f2 h1 _
      have ht : t = [] := List.eq_nil_of_length_eq_zero (by omega)
      subst ht
      cases f2 <;> rfl
  | succ f ih =>
      intro t f2 h1 h2
      cases f2 with
      | zero =>
          have ht : t = [] := List.eq_nil_of_length_eq_zero (by omega)
          subst ht
          rfl
      | succ g =>
          show (match splitAtChar '\x7b' t with
                | none => []
                | some (pre, rest) =>
                    (if (trimWS pre).head? = some '@' then
                        walkCssRulesF f (rest.take (findClose rest 1 - 1))
                      else [(trimWS pre, rest.take (findClose rest 1 - 1))]) ++
                      walkCssRulesF f (rest.drop (findClose rest 1))) =
              (match splitAtChar '\x7b' t with
                | none => []
                | some (pre, rest) =>
                    (if (trimWS pre).head? = some '@' then
                        walkCssRulesF g (rest.take (findClose rest 1 - 1))
                      else [(trimWS pre, rest.take (findClose rest 1 - 1))]) ++
                      walkCssRulesF g (rest.drop (findClose rest 1)))
          match hsp : splitAtChar '\x7b' t with
          | none => rfl
          | some (pre, rest) =>
              have hparts := splitAtChar_parts hsp
              have hbody : (rest.take (findClose rest 1 - 1)).length ≤ rest.length := by
                simp [List.length_take]
              have hafter : (rest.drop (findClose rest 1)).length ≤ rest.length := by
                simp [List.length_drop]
              dsimp only
              rw [ih (rest.take (findClose rest 1 - 1)) g (by omega) (by omega),
                  ih (rest.drop (findClose rest 1)) g (by omega) (by omega)]

/-- The one-step unfolding of the rule walk. -/
theorem walkCssRules_eq (t : List Char) :
    walkCssRules t =
      match splitAtChar '\x7b' t with
      | none => []
      | some (pre, rest) =>
          (if (trimWS pre).head? = some '@' then
              walkCssRules (rest.take (findClose rest 1 - 1))
            else [(trimWS pre, rest.take (findClose rest 1 - 1))]) ++
            walkCssRules (rest.drop (findClose rest 1)) := by
  cases t with
  | nil => rfl
  | cons c cs =>
      show (match splitAtChar '\x7b' (c :: cs) with
            | none => []
            | some (pre, rest) =>
                (if (trimWS pre).head? = some '@' then
                    walkCssRulesF cs.length (rest.take (findClose rest 1 - 1))
                  else [(trimWS pre, rest.take (findClose rest 1 - 1))]) ++
                  walkCssRulesF cs.length (rest.drop (findClose rest 1))) = _
      match hsp : splitAtChar '\x7b' (c :: cs) with
      | none => rfl
      | some (pre, rest) =>
          have hparts := splitAtChar_parts hsp
          have hbody : (rest.take (findClose rest 1 - 1)).length ≤ rest.length := by
            simp [List.length_take]
          have hafter : (rest.drop (findClose rest 1)).length ≤ rest.length := by
            simp [List.length_drop]
          simp only [List.length_cons] at hparts
          dsimp only
          rw [walkCssRulesF_irrel cs.length (rest.take (findClose rest 1 - 1)) _
                (by omega) (le_refl _),
              walkCssRulesF_irrel cs.length (rest.drop (findClose rest 1)) _
                (by omega) (le_refl _)]
          rfl

/-- Association lists standing for JS string-keyed records. -/
def lookupA {V : Type} : List (List Char × V) → List Char → Option V
  | [], _ => none
  | (k, v) :: t, key => if k = key then some v else lookupA t key

/-- JS object assignment: update in place, or append a fresh key. -/
def upsertA {V : Type} : List (List Char × V) → List Char → V → List (List Char × V)
  | [], key, v => [(key, v)]
  | (k, w) :: t, key, v =>
      if k = key then (k, v) :: t else (k, w) :: upsertA t key v

/-- `parseCssCustomProps` (extract.ts lines 82-95) on an already-walked
rule list: rules whose selector list has a segment trimming to `:root`
contribute their `--name: value` declarations (split on `;`, name/value
split at the first `:`, both trimmed, empty values skipped). -/
def customPropsOfRules (rules : List (List Char × List Char)) : List (List Char × List Char) :=
  rules.foldl (fun props rule =>
    if (splitOn ',' rule.1).any (fun s => trimWS s = (":root".toList)) then
      (splitOn ';' rule.2).foldl (fun props2 decl =>
        match splitAtChar ':' decl with
        | none => props2
        | some (n, v) =>
            let name := trimWS n
            let val := trimWS v
            if hasPfx ("--".toList) name ∧ val ≠ [] then upsertA props2 name val
            else props2) props
    else props) []

/-- `parseCssCustomProps` (extract.ts lines 82-95). -/
def parseCssCustomProps (stripped : List Char) : List (List Char × List Char) :=
  customPropsOfRules (walkCssRules stripped)

/-- One attempted match of the regex
`var\((--[\w-]+)(?:\s*,\s*([^)]*))?\)` at the head of the text:
returns the captured name (including `--`), the optional fallback
capture, and the text after the match. -/
def matchVar (s : List Char) : Option (List Char × Option (List Char) × List Char) :=
  if hasPfx ("var(--".toList) s then
    let s1 := s.drop 6
    let run := s1.takeWhile isWordDash
    let s2 := s1.dropWhile isWordDash
    if run = [] then none
    else if s2.head? = some ')' then some ('-' :: '-' :: run, none, s2.tail)
    else
      let s3 := s2.dropWhile isJsSpace
      if s3.head? = some ',' then
        let s4 := s3.tail.dropWhile isJsSpace
        let fb := s4.takeWhile (fun c => ¬ c = ')')
        let s5 := s4.dropWhile (fun c => ¬ c = ')')
        if s5.head? = some ')' then some ('-' :: '-' :: run, some fb, s5.tail)
        else none
      else none
  else none

theorem length_dropWhile_le {α : Type} (p : α → Bool) (l : List α) :
    (l.dropWhile p).length ≤ l.length :=
  (List.dropWhile_sublist p).length_le

theorem hasPfx_length : ∀ {p s : List Char}, hasPfx p s = true → p.length ≤ s.length := by
  intro p
  induction p with
  | nil => intro s _; simp
  | cons c cs ih =>
      intro s h
      match s, h with
      | [], h => cases h
      | d :: ds, h =>
          have h2 := (Bool.and_eq_true _ _).mp h
          have := ih h2.2
          simp only [List.length_cons]
          omega

theorem length_pos_of_head? {l : List Char} {a : Char} (h : l.head? = some a) : 0 < l.length := by
  cases l with
  | nil => cases h
  | cons x xs => simp

/-- A successful regex match consumes at least one character, so the
replace scan advances. -/
theorem matchVar_rest_length : ∀ {s n r : List Char} {f : Option (List Char)},
    matchVar s = some (n, f, r) → r.length < s.length := by
  intro s n r f h
  unfold matchVar at h
  split at h
  case isTrue hpfx =>
    have hlen6 : 6 ≤ s.length := hasPfx_length hpfx
    have hdw : ((s.drop 6).dropWhile isWordDash).length ≤ s.length - 6 := by
      have h1 := length_dropWhile_le isWordDash (s.drop 6)
      simp only [List.length_drop] at h1
      omega
    dsimp only at h
    split at h
    · cases h
    · split at h
      case isTrue h2 =>
        cases h
        have hp := length_pos_of_head? h2
        have ht := List.length_tail ((s.drop 6).dropWhile isWordDash)
        omega
      case isFalse =>
        split at h
        case isTrue h3 =>
          split at h
          case isTrue h5 =>
            cases h
            have hs3 : (((s.drop 6).dropWhile isWordDash).dropWhile isJsSpace).length ≤
                ((s.drop 6).dropWhile isWordDash).length :=
              length_dropWhile_le _ _
            have hp3 := length_pos_of_head? h3
            have ht3 := List.length_tail (((s.drop 6).dropWhile isWordDash).dropWhile isJsSpace)
            have hs4 : ((((s.drop 6).dropWhile isWordDash).dropWhile isJsSpace).tail.dropWhile isJsSpace).length ≤
                (((s.drop 6).dropWhile isWordDash).dropWhile isJsSpace).tail.length :=
              length_dropWhile_le _ _
            have hs5 : (((((s.drop 6).dropWhile isWordDash).dropWhile isJsSpace).tail.dropWhile isJsSpace).dropWhile
                (fun c => ¬ c = ')')).length ≤
                ((((s.drop 6).dropWhile isWordDash).dropWhile isJsSpace).tail.dropWhile isJsSpace).length :=
              length_dropWhile_le _ _
            have hp5 := length_pos_of_head? h5
            have ht5 := List.length_tail (((((s.drop 6).dropWhile isWordDash).dropWhile
                isJsSpace).tail.dropWhile isJsSpace).dropWhile (fun c => ¬ c = ')'))
            omega
          case isFalse => cases h
        case isFalse => cases h
  case isFalse => cases h

/-- Fueled driver of the regex replace; the fuel only bounds the
recursion depth, which never exceeds the text length. -/
def replaceVarsF : Nat → List Char → List (List Char × List Char) → List Char
  | 0, _, _ => []
  | fuel + 1, s, props =>
      match s with
      | [] => []
      | c :: cs =>
          match matchVar (c :: cs) with
          | some (name, fb, rest) =>
              (match lookupA props name with
               | some v => v
               | none =>
                   match fb with
                   | some f => trimWS f
                   | none => (c :: cs).take ((c :: cs).length - rest.length)) ++
                replaceVarsF fuel rest props
          | none => c :: replaceVarsF fuel cs props

/-- `resolveVars` (extract.ts lines 101-105): the global regex replace,
scanning left to right; each match is replaced by the table value of the
captured name, else the trimmed fallback capture, else the original
matched text; scanning resumes after the match (replacements are not
rescanned), so resolution is a single pass with no recursion. -/
def replaceVars (s : List Char) (props : List (List Char × List Char)) : List Char :=
  replaceVarsF s.length s props

theorem replaceVarsF_irrel : ∀ (f1 : Nat) (s : List Char)
    (props : List (List Char × List Char)) (f2 : Nat),
    s.length ≤ f1 → s.length ≤ f2 → replaceVarsF f1 s props = replaceVarsF f2 s props := by
  intro f1
  induction f1 with
  | zero =>
      intro s props f2 h1 _
      have hs : s = [] := List.eq_nil_of_length_eq_zero (by omega)
      subst hs
      cases f2 <;> rfl
  | succ f ih =>
      intro s props f2 h1 h2
      cases f2 with
      | zero =>
          have hs : s = [] := List.eq_nil_of_length_eq_zero (by omega)
          subst hs
          rfl
      | succ g =>
          cases s with
          | nil => rfl
          | cons c cs =>
              show (match matchVar (c :: cs) with
                    | some (name, fb, rest) =>
                        (match lookupA props name with
                         | some v => v
                         | none =>
                             match fb with
                             | some f2 => trimWS f2
                             | none => (c :: cs).take ((c :: cs).length - rest.length)) ++
                          replaceVarsF f rest props
                    | none => c :: replaceVarsF f cs props) =
                  (match matchVar (c :: cs) with
                    | some (name, fb, rest) =>
                        (match lookupA props name with
                         | some v => v
                         | none =>
                             match fb with
                             | some f2 => trimWS f2
                             | none => (c :: cs).take ((c :: cs).length - rest.length)) ++
                          replaceVarsF g rest props
                    | none => c :: replaceVarsF g cs props)
              simp only [List.length_cons] at h1 h2
              match hm : matchVar (c :: cs) with
              | some (name, fb, rest) =>
                  dsimp only
                  have hr := matchVar_rest_length hm
                  simp only [List.length_cons] at hr
                  rw [ih rest props g (by omega) (by omega)]
              | none =>
                  dsimp only
                  rw [ih cs props g (by omega) (by omega)]

/-- The one-step unfolding of the regex replace. -/
theorem replaceVars_eq (s : List Char) (props : List (List Char × List Char)) :
    replaceVars s props =
      match s with
      | [] => []
      | c :: cs =>
          match matchVar (c :: cs) with
          | some (name, fb, rest) =>
              (match lookupA props name with
               | some v => v
               | none =>
                   match fb with
                   | some f => trimWS f
                   | none => (c :: cs).take ((c :: cs).length - rest.length)) ++
                replaceVars rest props
          | none => c :: replaceVars cs props := by
  cases s with
  | nil => rfl
  | cons c cs =>
      show (match matchVar (c :: cs) with
            | some (name, fb, rest) =>
                (match lookupA props name with
                 | some v => v
                 | none =>
                     match fb with
                     | some f => trimWS f
                     | none => (c :: cs).take ((c :: cs).length - rest.length)) ++
                  replaceVarsF cs.length rest props
            | none => c :: replaceVarsF cs.length cs props) = _
      dsimp only
      match hm : matchVar (c :: cs) with
      | some (name, fb, rest) =>
          dsimp only
          have hr := matchVar_rest_length hm
          simp only [List.length_cons] at hr
          rw [replaceVarsF_irrel cs.length rest props rest.length (by omega) (le_refl _)]
          rfl
      | none => rfl

/-- `CLASS_STYLE_PROPS` (extract.ts lines 8-44): the fixed allow-list of
visually significant properties. -/
def CLASS_STYLE_PROPS : List (List Char) :=
  (["color", "background-color", "font-size", "font-weight",
    "padding-top", "padding-right", "padding-bottom", "padding-left",
    "margin-top", "margin-right", "margin-bottom", "margin-left",
    "max-width", "min-height", "display", "flex-direction",
    "justify-content", "align-items", "gap", "border-radius",
    "border-top-width", "border-right-width", "border-bottom-width",
    "border-left-width", "border-top-color", "border-right-color",
    "border-bottom-color", "border-left-color", "border-top-style",
    "opacity", "text-align", "line-height", "box-shadow",
    "text-decoration", "text-transform"] : List String).map String.toList

/-- `PROP_SET.has` (extract.ts line 46). -/
def propAllowed (p : List Char) : Bool := CLASS_STYLE_PROPS.contains p

/-- The bare-class-selector test `/^\.([\w-]+)$/` (extract.ts line 127)
on an already-trimmed selector segment: a literal dot followed by one or
more word characters or hyphens and nothing else; returns the captured
class name. -/
def bareClassName (sel : List Char) : Option (List Char) :=
  match sel with
  | '.' :: rest => if rest ≠ [] ∧ rest.all isWordDash then some rest else none
  | _ => none

/-- The qualifying declarations of one rule body (extract.ts lines
131-138): split on `;`, split each at the first `:`, trim, keep
allow-listed properties with nonempty raw values, resolve `var()`
references in the value. -/
def qualifyingDecls (body : List Char) (cp : List (List Char × List Char)) :
    List (List Char × List Char) :=
  (splitOn ';' body).filterMap (fun decl =>
    match splitAtChar ':' decl with
    | none => none
    | some (n, v) =>
        let prop := trimWS n
        let raw := trimWS v
        if propAllowed prop ∧ raw ≠ [] then some (prop, replaceVars raw cp) else none)

/-- The nested class → property → value map. -/
abbrev CMap : Type := List (List Char × List (List Char × List Char))

/-- `if (!result[cls]) result[cls] = {}` (extract.ts line 130): a fresh
class key is appended with an empty map. -/
def ensureClass (m : CMap) (cls : List Char) : CMap :=
  match lookupA m cls with
  | some _ => m
  | none => m ++ [(cls, [])]

/-- `result[cls][prop] = v` (extract.ts line 137): update the (present)
class entry in place. -/
def setProp (m : CMap) (cls prop v : List Char) : CMap :=
  m.map (fun e => if e.1 = cls then (e.1, upsertA e.2 prop v) else e)

/-- The per-rule step of `parseClassStylesFromCss` (extract.ts lines
124-141): each selector segment that is a bare class selector receives
all qualifying declarations of the body in order. -/
def applyRule (cp : List (List Char × List Char)) (m : CMap) (sel body : List Char) : CMap :=
  (splitOn ',' sel).foldl (fun m1 s =>
    match bareClassName (trimWS s) with
    | none => m1
    | some cls =>
        (qualifyingDecls body cp).foldl (fun m2 pv => setProp m2 cls pv.1 pv.2)
          (ensureClass m1 cls)) m

/-- The rule-list fold of `parseClassStylesFromCss`. -/
def classStylesOfRules (rules : List (List Char × List Char))
    (cp : List (List Char × List Char)) : CMap :=
  rules.foldl (fun m r => applyRule cp m r.1 r.2) []

/-- `parseClassStylesFromCss` (extract.ts lines 115-144): strip block
comments, collect the `:root` custom properties, then walk all rules
accumulating resolved allow-listed declarations per bare class. -/
def parseClassStylesFromCss (css : List Char) : CMap :=
  let stripped := stripComments css
  classStylesOfRules (walkCssRules stripped) (parseCssCustomProps stripped)

/-- Lookup of one property of one class in the extractor's output. -/
def lookup2 (m : CMap) (cls prop : List Char) : Option (List Char) :=
  (lookupA m cls).bind (fun im => lookupA im prop)

/-- Specification-side collector for the last-declaration-wins claim:
the resolved values of every qualifying declaration of `prop` for the
bare class `cls`, in stylesheet walk order. -/
def collectDeclsOfRules (rules : List (List Char × List Char))
    (cp : List (List Char × List Char)) (cls prop : List Char) : List (List Char) :=
  rules.flatMap (fun r =>
    (splitOn ',' r.1).flatMap (fun s =>
      if bareClassName (trimWS s) = some cls then
        (qualifyingDecls r.2 cp).filterMap (fun pv =>
          if pv.1 = prop then some pv.2 else none)
      else []))

/-- Specification-side collector over a whole stylesheet text. -/
def collectDecls (css cls prop : List Char) : List (List Char) :=
  collectDeclsOfRules (walkCssRules (stripComments css))
    (parseCssCustomProps (stripComments css)) cls prop

/-- Brace-depth scan: `true` when scanning the text from the given
depth never closes the surrounding block (depth never reaches 0). -/
def ncFrom : List Char → Nat → Bool
  | [], _ => true
  | c :: cs, d =>
      let d' := if c = '\x7b' then d + 1 else if c = '\x7d' then d - 1 else d
      !(d' == 0) && ncFrom cs d'

/-- The brace depth after scanning a text from a starting depth. -/
def endD (t : List Char) (d : Nat) : Nat :=
  t.foldl (fun d c => if c = '\x7b' then d + 1 else if c = '\x7d' then d - 1 else d) d

/-- A text is brace-balanced when scanning it from inside one open
block neither closes that block nor leaves any of its own blocks open. -/
def bracesBalanced (t : List Char) : Prop :=
  ncFrom t 1 = true ∧ endD t 1 = 1

/-- No slash characters, hence no comment delimiters. -/
def noSlash (t : List Char) : Bool := t.all (fun c => ¬ c = '/')

/-- The CSS text `@media (x){ … }` wrapped around a rule text, iterated
`n` times: the claim's arbitrarily deep at-rule nesting. -/
def nestMedia : Nat → List Char → List Char
  | 0, t => t
  | n + 1, t => ("@media (x)".toList) ++ '\x7b' :: (nestMedia n t ++ ['\x7d'])

/-- A concrete bitmap for exercising the analysis: width 3, height 2,
row 0 entirely black, row 1 = black, white, white (alpha 255). -/
def bmpC1 : Bitmap :=
  { width := 3
    height := 2
    data := fun i =>
      let y := i / 12
      let x := (i % 12) / 4
      let c := i % 4
      if c = 3 then 255 else if y = 1 ∧ 1 ≤ x then 255 else 0 }

/-- A zero-area bitmap (width 0, height 0). -/
def zeroBitmap : Bitmap := { width := 0, height := 0, data := fun _ => 0 }

/-- A constant all-black pixel buffer. -/
def constBlackBuf : Nat → Nat := fun _ => 0

/-- A small constant bitmap of positive area. -/
def bmpGray : Bitmap := { width := 2, height := 2, data := fun _ => 128 }

/-- The one-character brace-depth step shared by `findClose`, `ncFrom`
and `endD`. -/
def stepD (c : Char) (d : Nat) : Nat :=
  if c = '\x7b' then d + 1 else if c = '\x7d' then d - 1 else d

/-- Concrete stylesheet for the C4 witness: one bare class rule. -/
def cssC4 : List Char := (".x\x7bcolor:red\x7d").toList

/-- Concrete stylesheet for the C6 witness: one bare class rule with an
allow-listed property and one property outside the allow-list. -/
def cssC6 : List Char := (".x\x7bcolor:red;width:5px\x7d").toList

/-- C5 example: a defined custom property referenced without fallback. -/
def cssC5a : List Char := (":root\x7b--c: blue;\x7d .x\x7bcolor:var(--c);\x7d").toList

/-- C5 example: an undefined custom property with a fallback. -/
def cssC5b : List Char := (".x\x7bcolor:var(--missing, green);\x7d").toList

/-- C5 example: an undefined custom property without fallback. -/
def cssC5c : List Char := (".x\x7bcolor:var(--missing);\x7d").toList

/-- C5 example: a custom property whose table value itself contains a
`var()` reference, demonstrating that substitution does not recurse. -/
def cssC5d : List Char :=
  (":root\x7b--a: var(--b);--b: red;\x7d .x\x7bcolor:var(--a);\x7d").toList

/- Structural analysis (structural.ts). -/

/-- JS `Set` insertion order over string keys: keep the first occurrence
of each key, in order.  The accumulator holds the keys already seen. -/
def dedupAcc : List (List Char) → List (List Char) → List (List Char)
  | [], _ => []
  | k :: t, seen =>
      if seen.contains k then dedupAcc t seen else k :: dedupAcc t (k :: seen)

/-- The iteration order of `new Set([...as, ...bs])`. -/
def dedupFirst (l : List (List Char)) : List (List Char) := dedupAcc l []

/-- The placeholder shown for a missing side (structural.ts lines 68-69). -/
def notDeclared : List Char := ("(not declared)").toList

/-- `CssPropertyChange` (types, part_003 lines 72-76). -/
structure CssPropertyChange where
  property : List Char
  before : List Char
  after : List Char
deriving DecidableEq

/-- `CssClassChange` (types, part_003 lines 82-87): note the type has no
`kind` (added/removed/changed) field. -/
structure CssClassChange where
  className : List Char
  changedProperties : List CssPropertyChange
  elementCountBefore : Nat
  elementCountAfter : Nat
deriving DecidableEq

/-- The inner property loop of `diffCssClasses` (structural.ts lines
60-72): union of property keys, missing values default to the empty
string, and a row is emitted only when the two values differ, with empty
values displayed as `(not declared)`. -/
def diffPropRows (bProps aProps : List (List Char × List Char)) : List CssPropertyChange :=
  (dedupFirst (bProps.map Prod.fst ++ aProps.map Prod.fst)).filterMap (fun prop =>
    let bVal := (lookupA bProps prop).getD []
    let aVal := (lookupA aProps prop).getD []
    if bVal = aVal then none
    else some { property := prop,
                before := if bVal = [] then notDeclared else bVal,
                after := if aVal = [] then notDeclared else aVal })

/-- The sort key of structural.ts line 86: total element impact. -/
def impact (c : CssClassChange) : Nat := c.elementCountBefore + c.elementCountAfter

/-- Stable insertion into a list sorted by descending impact: an element
is placed before the first strictly smaller key, so elements that
compare equal keep their original relative order, as the (stable) JS
`Array.prototype.sort` does. -/
def insDesc (x : CssClassChange) : List CssClassChange → List CssClassChange
  | [] => [x]
  | y :: t => if impact y ≤ impact x then x :: y :: t else y :: insDesc x t

/-- Stable sort by descending element impact (structural.ts line 86). -/
def sortImpact : List CssClassChange → List CssClassChange
  | [] => []
  | x :: t => insDesc x (sortImpact t)

/-- `diffCssClasses` (structural.ts lines 41-88) over the two class
style maps; the per-page element counts (`countByClass`, a cheerio DOM
query) are passed as functions. -/
def diffCssClasses (bs as : CMap) (countB countA : List Char → Nat) : List CssClassChange :=
  let changes := (dedupFirst (bs.map Prod.fst ++ as.map Prod.fst)).filterMap (fun cls =>
    let bProps := (lookupA bs cls).getD []
    let aProps := (lookupA as cls).getD []
    let rows := diffPropRows bProps aProps
    if rows = [] then none
    else some { className := cls, changedProperties := rows,
                elementCountBefore := countB cls, elementCountAfter := countA cls })
  (sortImpact changes).take 60

/-- Modelled from the spec: a DOM element as the structural differ sees
it — lowercased tag name, optional `id` attribute, raw `class`
attribute text.  A document is its elements in document order; the
cheerio selector queries of structural.ts are document-order searches
over this list. -/
structure Elem where
  tag : List Char
  idAttr : Option (List Char)
  classAttr : List Char
deriving DecidableEq

/-- `split(/\s+/)` at each whitespace character; empty segments are kept
here and removed by the `.filter(Boolean)` of the caller, giving the
same tokens as splitting at whitespace runs. -/
def wsSplit : List Char → List (List Char)
  | [] => [[]]
  | c :: cs =>
      if isJsSpace c then [] :: wsSplit cs
      else
        match wsSplit cs with
        | [] => [[c]]
        | h :: t => (c :: h) :: t

/-- `new Set(attr.split(/\s+/).filter(Boolean))` (structural.ts lines
109-110): whitespace-separated class tokens, first occurrence kept. -/
def classTokens (s : List Char) : List (List Char) :=
  dedupFirst ((wsSplit s).filter (fun t => ¬ t = []))

/-- The semantic singleton tags of structural.ts line 139. -/
def SEMANTIC_TAGS : List (List Char) :=
  (["nav", "header", "footer", "main", "aside"]).map String.toList

/-- The id matching pass (structural.ts lines 130-136): every element of
document 1 with a non-empty id, paired with the first element of
document 2 bearing the same id, under the identifier `#id`. -/
def idAttempts (bdoc adoc : List Elem) : List (List Char × Elem × Elem) :=
  bdoc.filterMap (fun be =>
    match be.idAttr with
    | none => none
    | some id =>
        if id = [] then none
        else
          match adoc.find? (fun e => e.idAttr = some id) with
          | none => none
          | some ae => some ('#' :: id, be, ae))

/-- The semantic tag pass (structural.ts lines 139-143): for each
semantic tag present in both documents, the first occurrence on each
side under the identifier `<tag>`. -/
def tagAttempts (bdoc adoc : List Elem) : List (List Char × Elem × Elem) :=
  SEMANTIC_TAGS.filterMap (fun tag =>
    match bdoc.find? (fun e => e.tag = tag), adoc.find? (fun e => e.tag = tag) with
    | some be, some ae => some ('<' :: (tag ++ ['>']), be, ae)
    | _, _ => none)

/-- `ElementClassChange` (types, part_003 lines 92-99). -/
structure ElementClassChange where
  identifier : List Char
  tag : List Char
  classesBefore : List (List Char)
  classesAfter : List (List Char)
  classesAdded : List (List Char)
  classesRemoved : List (List Char)
deriving DecidableEq

/-- The `compare` closure of `diffElementClasses` (structural.ts lines
103-127): skip identifiers already seen (the `seen` set holds identifier
strings, not elements), compute the class token sets of both sides, and
record a change only when the symmetric difference is non-empty. -/
def compareStep (acc : List (List Char) × List ElementClassChange)
    (att : List Char × Elem × Elem) : List (List Char) × List ElementClassChange :=
  if acc.1.contains att.1 then acc
  else
    let bCl := classTokens att.2.1.classAttr
    let aCl := classTokens att.2.2.classAttr
    let added := aCl.filter (fun c => ¬ bCl.contains c)
    let removed := bCl.filter (fun c => ¬ aCl.contains c)
    if added = [] ∧ removed = [] then (att.1 :: acc.1, acc.2)
    else (att.1 :: acc.1,
      acc.2 ++ [{ identifier := att.1, tag := att.2.1.tag,
                  classesBefore := bCl, classesAfter := aCl,
                  classesAdded := added, classesRemoved := removed }])

/-- `diffElementClasses` (structural.ts lines 96-146): the id pass runs
first, then the semantic tag pass — without excluding elements already
matched by id — and the result is capped at 40 entries. -/
def diffElementClasses (bdoc adoc : List Elem) : List ElementClassChange :=
  ((idAttempts bdoc adoc ++ tagAttempts bdoc adoc).foldl compareStep ([], [])).2.take 40

/-- Modelled from the spec: an anchor element of a document — the
optional `href` attribute and the visible text. -/
structure Anchor where
  href : Option (List Char)
  text : List Char
deriving DecidableEq

/-- `ContentChange` (types, part_003 lines 102-107); the `type`
discriminator is the `ctype` field here, as `type` is reserved. -/
structure ContentChange where
  ctype : List Char
  location : List Char
  before : List Char
  after : List Char
deriving DecidableEq

/-- `replace(/\s+/g, ' ')`: collapse each whitespace run to one space;
the flag records whether the previous character was whitespace. -/
def collapseWSAux : Bool → List Char → List Char
  | _, [] => []
  | prevSpace, c :: cs =>
      if isJsSpace c then
        if prevSpace then collapseWSAux true cs else ' ' :: collapseWSAux true cs
      else c :: collapseWSAux false cs

/-- JS `text.replace(/\s+/g, ' ')`. -/
def collapseWS (s : List Char) : List Char := collapseWSAux false s

/-- The location string of a link change (structural.ts lines 211-212):
the quoted trimmed link text capped at 40 characters, or the 1-based
positional fallback. -/
def linkLoc (b : Anchor) (i : Nat) : List Char :=
  let t := (trimWS (collapseWS b.text)).take 40
  if t = [] then ("a:nth(").toList ++ (Nat.repr (i + 1)).toList ++ [')']
  else 'a' :: ' ' :: '"' :: (t ++ ['"'])

/-- The body of the link loop (structural.ts lines 204-214) for the
`i`-th `a[href]` of document 1 paired against anchor `a` of document 2:
skip when the before href is empty, unchanged, or both sides are
fragment links; otherwise record the link change. -/
def ruleOpt (i : Nat) (b a : Anchor) : Option ContentChange :=
  let bHref := trimWS (b.href.getD [])
  let aHref := trimWS (a.href.getD [])
  if bHref = [] then none
  else if bHref = aHref then none
  else if hasPfx ['#'] bHref ∧ hasPfx ['#'] aHref then none
  else some { ctype := ("link").toList, location := linkLoc b i,
              before := bHref, after := aHref }

/-- The `$b('a[href]').each((i, el) => ...)` loop (structural.ts lines
204-215): `i` counts the href-bearing anchors of document 1, while the
partner `$a('a').eq(i)` is the `i`-th anchor of any kind in document 2;
a missing partner skips the element. -/
def linkWalk (adoc : List Anchor) : Nat → List Anchor → List ContentChange
  | _, [] => []
  | i, b :: bs =>
      (match adoc[i]? with
       | none => []
       | some a => (ruleOpt i b a).toList) ++ linkWalk adoc (i + 1) bs

/-- The link section of `diffContent` (structural.ts lines 204-215). -/
def linkChanges (bdoc adoc : List Anchor) : List ContentChange :=
  linkWalk adoc 0 (bdoc.filter (fun x => x.href.isSome))

/-- Spec-side reformulation of the pairing: the href-bearing anchors of
document 1 zipped positionally against all anchors of document 2. -/
def linkZipWalk : Nat → List (Anchor × Anchor) → List ContentChange
  | _, [] => []
  | i, (b, a) :: t => (ruleOpt i b a).toList ++ linkZipWalk (i + 1) t

/-- Spec-side link diff: the zip formulation of the anchor pairing. -/
def pairedLinksSpec (bdoc adoc : List Anchor) : List ContentChange :=
  linkZipWalk 0 ((bdoc.filter (fun x => x.href.isSome)).zip adoc)

/-- C8 example: a `nav` element carrying an id, in each document. -/
def navElemB : Elem :=
  { tag := ("nav").toList, idAttr := some (("n").toList), classAttr := ("x").toList }

/-- C8 example: the same `nav` element with a changed class attribute. -/
def navElemA : Elem :=
  { tag := ("nav").toList, idAttr := some (("n").toList), classAttr := ("y").toList }

/-- C7 example: a class whose only declaration resolves to the empty
string (empty fallback of an undefined variable). -/
def cssC7x : List Char := (".a\x7bcolor:var(--x,);\x7d").toList

/- ===================================================================
   Theorems
   =================================================================== -/

/-- The final best score never exceeds the incoming one. -/
theorem bestFold_snd_le (cand : Int → Bool) (sad : Int → WithTop ℚ) :
    ∀ (L : List Int) (s : Int × WithTop ℚ), (bestFold cand sad L s).2 ≤ s.2 := by
  intro L
  induction L with
  | nil => intro s; exact le_refl _
  | cons d ds ih =>
      intro s
      show (bestFold cand sad ds (if cand d ∧ sad d < s.2 then (d, sad d) else s)).2 ≤ s.2
      by_cases h : cand d ∧ sad d < s.2
      · rw [if_pos h]
        exact le_trans (ih _) (le_of_lt h.2)
      · rw [if_neg h]
        exact ih s

/-- The final best score is at most the score of every scanned candidate. -/
theorem bestFold_min (cand : Int → Bool) (sad : Int → WithTop ℚ) :
    ∀ (L : List Int) (s : Int × WithTop ℚ) (d : Int), d ∈ L → cand d →
      (bestFold cand sad L s).2 ≤ sad d := by
  intro L
  induction L with
  | nil => intro s d hd; cases hd
  | cons x xs ih =>
      intro s d hd hc
      show (bestFold cand sad xs (if cand x ∧ sad x < s.2 then (x, sad x) else s)).2 ≤ sad d
      rcases List.mem_cons.mp hd with rfl | hmem
      · by_cases h : cand d ∧ sad d < s.2
        · rw [if_pos h]
          exact bestFold_snd_le cand sad xs _
        · rw [if_neg h]
          have hns : s.2 ≤ sad d := le_of_not_lt (fun hlt => h ⟨hc, hlt⟩)
          exact le_trans (bestFold_snd_le cand sad xs s) hns
      · exact ih _ d hmem hc

/-- Either no candidate ever improved on the incoming state, or the final
state is an in-bounds candidate of the scanned list carrying its own score. -/
theorem bestFold_cases (cand : Int → Bool) (sad : Int → WithTop ℚ) :
    ∀ (L : List Int) (s : Int × WithTop ℚ),
      bestFold cand sad L s = s ∨
      (cand (bestFold cand sad L s).1 = true ∧
       (bestFold cand sad L s).2 = sad (bestFold cand sad L s).1 ∧
       (bestFold cand sad L s).1 ∈ L ∧ (bestFold cand sad L s).2 < s.2) := by
  intro L
  induction L with
  | nil => intro s; exact Or.inl rfl
  | cons x xs ih =>
      intro s
      have hunf : bestFold cand sad (x :: xs) s
          = bestFold cand sad xs (if cand x ∧ sad x < s.2 then (x, sad x) else s) := rfl
      rw [hunf]
      by_cases h : cand x ∧ sad x < s.2
      · rw [if_pos h]
        rcases ih (x, sad x) with heq | ⟨hc, hs, hm, hlt⟩
        · right
          rw [heq]
          exact ⟨h.1, rfl, List.mem_cons_self x xs, h.2⟩
        · right
          exact ⟨hc, hs, List.mem_cons_of_mem x hm, lt_trans hlt h.2⟩
      · rw [if_neg h]
        rcases ih s with heq | ⟨hc, hs, hm, hlt⟩
        · left; exact heq
        · right
          exact ⟨hc, hs, List.mem_cons_of_mem x hm, hlt⟩

/-- Ascending scan with replacement only on a strictly lower score: when a
scanned candidate ties with the strictly improved final score, the final
offset is at most that candidate (the first minimizer in scan order wins). -/
theorem bestFold_first (cand : Int → Bool) (sad : Int → WithTop ℚ) :
    ∀ (L : List Int) (s : Int × WithTop ℚ), L.Pairwise (· < ·) →
      ∀ d ∈ L, cand d → sad d = (bestFold cand sad L s).2 →
        (bestFold cand sad L s).2 < s.2 → (bestFold cand sad L s).1 ≤ d := by
  intro L
  induction L with
  | nil => intro s _ d hd; cases hd
  | cons x xs ih =>
      intro s hp d hd hc hsad hlt
      have hpx := List.pairwise_cons.mp hp
      have hunf : bestFold cand sad (x :: xs) s
          = bestFold cand sad xs (if cand x ∧ sad x < s.2 then (x, sad x) else s) := rfl
      rw [hunf] at hsad hlt ⊢
      by_cases h : cand x ∧ sad x < s.2
      · rw [if_pos h] at hsad hlt ⊢
        rcases bestFold_cases cand sad xs (x, sad x) with heq | ⟨_, _, _, hlt'⟩
        · rw [heq] at hsad hlt ⊢
          rcases List.mem_cons.mp hd with rfl | hmem
          · exact le_refl _
          · exact le_of_lt (hpx.1 d hmem)
        · rcases List.mem_cons.mp hd with rfl | hmem
          · have hlt2 : (bestFold cand sad xs (d, sad d)).2 < sad d := hlt'
            rw [← hsad] at hlt2
            exact absurd hlt2 (lt_irrefl _)
          · exact ih (x, sad x) hpx.2 d hmem hc hsad hlt'
      · rw [if_neg h] at hsad hlt ⊢
        rcases List.mem_cons.mp hd with rfl | hmem
        · have hge : s.2 ≤ sad d := le_of_not_lt (fun hh => h ⟨hc, hh⟩)
          rw [hsad] at hge
          exact absurd (lt_of_le_of_lt hge hlt) (lt_irrefl _)
        · exact ih s hpx.2 d hmem hc hsad hlt

/-- Membership in the scanned offset range. -/
theorem mem_offsetRange (ms : Nat) (dy : Int) :
    dy ∈ offsetRange ms ↔ -(ms : Int) ≤ dy ∧ dy ≤ (ms : Int) := by
  constructor
  · intro h
    rcases List.mem_map.mp h with ⟨k, hk, rfl⟩
    have := List.mem_range.mp hk
    omega
  · intro h
    refine List.mem_map.mpr ⟨(dy + ms).toNat, List.mem_range.mpr ?_, ?_⟩ <;> omega

/-- The offset range is scanned in strictly ascending order. -/
theorem pairwise_offsetRange (ms : Nat) : (offsetRange ms).Pairwise (· < ·) := by
  refine List.Pairwise.map _ (fun a b h => ?_) (List.pairwise_lt_range _)
  omega


/-- The step list with stride one is just the index range. -/
theorem stepList_one (n : Nat) : stepList n 1 = List.range n := by
  unfold stepList
  rw [List.filter_eq_self]
  intro a _
  simp [Nat.mod_one]

/-- Every loop index is below the bound. -/
theorem mem_stepList_lt {n step k : Nat} (h : k ∈ stepList n step) : k < n :=
  List.mem_range.mp (List.mem_filter.mp h).1

/-- A positive bound makes the loop run at least once. -/
theorem zero_mem_stepList (n step : Nat) (hn : 0 < n) : 0 ∈ stepList n step :=
  List.mem_filter.mpr (And.intro (List.mem_range.mpr hn) (by simp))

/-- Comparing a buffer against itself contributes nothing to the SAD. -/
theorem sampleDiff_self (data : Nat → Nat) (w aY dy x : Nat) :
    sampleDiff data w aY data w aY dy x = 0 := by
  simp [sampleDiff]

/-- A zero sample difference means the three RGB bytes agree. -/
theorem sampleDiff_eq_zero (aData : Nat → Nat) (aW aY : Nat) (bData : Nat → Nat)
    (bW bY dy x : Nat) (h : sampleDiff aData aW aY bData bW bY dy x = 0) :
    aData (((aY + dy) * aW + x) * 4) = bData (((bY + dy) * bW + x) * 4) ∧
    aData (((aY + dy) * aW + x) * 4 + 1) = bData (((bY + dy) * bW + x) * 4 + 1) ∧
    aData (((aY + dy) * aW + x) * 4 + 2) = bData (((bY + dy) * bW + x) * 4 + 2) := by
  simp only [sampleDiff] at h
  omega

/-- A vanishing double sum of naturals vanishes pointwise. -/
theorem sum_map_map_eq_zero {α β : Type} (rows : List α) (cols : List β) (f : α → β → Nat)
    (h : (rows.map (fun r => (cols.map (fun c => f r c)).sum)).sum = 0) :
    ∀ r ∈ rows, ∀ c ∈ cols, f r c = 0 := by
  intro r hr c hc
  have h1 := List.sum_eq_zero_iff.mp h _ (List.mem_map.mpr ⟨r, hr, rfl⟩)
  exact List.sum_eq_zero_iff.mp h1 _ (List.mem_map.mpr ⟨c, hc, rfl⟩)

/-- The coarse SAD of a nondegenerate strip against itself is zero. -/
theorem computeStripSAD_self_zero (data : Nat → Nat) (w y : Nat) (stripH : Int)
    (maxH cx cy : Nat) (hw : 0 < w)
    (hpos : 0 < min stripH ((maxH : Int) - (y : Int))) :
    computeStripSAD data w y data w y stripH maxH cx cy = ((0 : ℚ) : WithTop ℚ) := by
  unfold computeStripSAD
  simp only [Nat.min_self, min_self]
  rw [if_neg (by omega)]
  rw [if_neg ?hc]
  case hc =>
    have h1 : 0 ∈ stepList (min stripH ((maxH : Int) - (y : Int))).toNat cy :=
      zero_mem_stepList _ _ (by omega)
    have h2 : 0 ∈ stepList w cx := zero_mem_stepList _ _ hw
    have := List.length_pos_of_mem h1
    have := List.length_pos_of_mem h2
    positivity
  have hsum : ((stepList (min stripH ((maxH : Int) - (y : Int))).toNat cy).map (fun dy =>
      ((stepList w cx).map (fun x => sampleDiff data w y data w y dy x)).sum)).sum = 0 := by
    apply List.sum_eq_zero
    intro t ht
    rcases List.mem_map.mp ht with ⟨dy, _, rfl⟩
    apply List.sum_eq_zero
    intro u hu
    rcases List.mem_map.mp hu with ⟨x, _, rfl⟩
    exact sampleDiff_self data w y dy x
  rw [hsum]
  norm_num

/-- The coarse SAD is never negative. -/
theorem computeStripSAD_nonneg (aData : Nat → Nat) (aWidth aY : Nat)
    (bData : Nat → Nat) (bWidth bY : Nat) (stripH : Int) (maxH cx cy : Nat) :
    ((0 : ℚ) : WithTop ℚ) ≤ computeStripSAD aData aWidth aY bData bWidth bY stripH maxH cx cy := by
  unfold computeStripSAD
  dsimp only
  split
  · exact le_top
  · split
    · exact le_top
    · refine WithTop.coe_le_coe.mpr ?_
      exact div_nonneg (Nat.cast_nonneg _) (Nat.cast_nonneg _)

/-- An offset score is never negative. -/
theorem offsetSAD_nonneg (beforeData : Nat → Nat) (width beforeH : Nat)
    (afterData : Nat → Nat) (afterH stripY sh cx cy : Nat) (dy : Int) :
    ((0 : ℚ) : WithTop ℚ) ≤ offsetSAD beforeData width beforeH afterData afterH stripY sh cx cy dy := by
  unfold offsetSAD
  exact computeStripSAD_nonneg _ _ _ _ _ _ _ _ _ _

/-- A zero SAD forces every coarse sample to agree. -/
theorem computeStripSAD_eq_zero_extract (aData : Nat → Nat) (aW aY : Nat)
    (bData : Nat → Nat) (bW bY : Nat) (stripH : Int) (maxH cx cy : Nat)
    (hz : computeStripSAD aData aW aY bData bW bY stripH maxH cx cy = ((0 : ℚ) : WithTop ℚ)) :
    ∀ dy ∈ stepList (min stripH (min ((maxH : Int) - (aY : Int)) ((maxH : Int) - (bY : Int)))).toNat cy,
      ∀ x ∈ stepList (min aW bW) cx,
        sampleDiff aData aW aY bData bW bY dy x = 0 := by
  unfold computeStripSAD at hz
  dsimp only at hz
  split at hz
  · exact absurd hz (by simp)
  · split at hz
    · exact absurd hz (by simp)
    · rename_i hcnt
      rw [WithTop.coe_eq_coe] at hz
      rcases div_eq_zero_iff.mp hz with hs | hc
      · have hs2 : ((stepList (min stripH (min ((maxH : Int) - (aY : Int)) ((maxH : Int) - (bY : Int)))).toNat cy).map
            (fun dy => ((stepList (min aW bW) cx).map
              (fun x => sampleDiff aData aW aY bData bW bY dy x)).sum)).sum = 0 := by
          exact_mod_cast hs
        exact sum_map_map_eq_zero _ _ _ hs2
      · exact absurd hc (by exact_mod_cast hcnt)

/-- A zero self-alignment score at stride one forces every pixel of the
reference strip to agree with the shifted strip. -/
theorem offsetSAD_zero_extract (data : Nat → Nat) (w h stripY sh : Nat) (dy : Int)
    (hsh : 0 < sh) (hy : stripY < h)
    (hcand : inBoundsOffset h stripY (searchStripH h stripY sh) dy = true)
    (hz : offsetSAD data w h data h stripY sh 1 1 dy = ((0 : ℚ) : WithTop ℚ)) :
    ∀ y < min sh (h - stripY), ∀ x < w,
      sampleDiff data w stripY data w ((stripY : Int) + dy).toNat y x = 0 := by
  intro y hylt x hxlt
  have hb : 0 ≤ (stripY : Int) + dy ∧
      (stripY : Int) + dy + min (sh : Int) ((h : Int) - (stripY : Int)) ≤ (h : Int) := by
    simpa [inBoundsOffset, searchStripH, Bool.and_eq_true, decide_eq_true_eq] using hcand
  have hz2 : computeStripSAD data w stripY data w ((stripY : Int) + dy).toNat
      (searchStripH h stripY sh) (min h h) 1 1 = ((0 : ℚ) : WithTop ℚ) := hz
  refine computeStripSAD_eq_zero_extract data w stripY data w _ _ _ 1 1 hz2 y ?_ x ?_
  · rw [stepList_one]
    refine List.mem_range.mpr ?_
    unfold searchStripH
    omega
  · rw [stepList_one]
    exact List.mem_range.mpr (by omega)

/-- Agreeing RGB bytes give a zero pixel distance. -/
theorem pixelDist_zero (a b : Nat → Nat) (w x y : Nat)
    (e0 : a ((y * w + x) * 4) = b ((y * w + x) * 4))
    (e1 : a ((y * w + x) * 4 + 1) = b ((y * w + x) * 4 + 1))
    (e2 : a ((y * w + x) * 4 + 2) = b ((y * w + x) * 4 + 2)) :
    pixelDist a b w x y = 0 := by
  unfold pixelDist
  dsimp only
  rw [e0, e1, e2]
  simp

/-- Strips that agree pixel for pixel in RGB report no changed pixels. -/
theorem stripChangedCount_zero (a b : Nat → Nat) (w sH : Nat) (thr : ℚ) (aa : Bool)
    (hthr : 0 ≤ thr)
    (heq : ∀ y < sH, ∀ x < w,
      a ((y * w + x) * 4) = b ((y * w + x) * 4) ∧
      a ((y * w + x) * 4 + 1) = b ((y * w + x) * 4 + 1) ∧
      a ((y * w + x) * 4 + 2) = b ((y * w + x) * 4 + 2)) :
    stripChangedCount a b w sH thr aa = 0 := by
  unfold stripChangedCount
  apply List.sum_eq_zero
  intro t ht
  rcases List.mem_map.mp ht with ⟨y, hy, rfl⟩
  apply List.sum_eq_zero
  intro u hu
  rcases List.mem_map.mp hu with ⟨x, hx, rfl⟩
  rw [if_neg]
  intro hch
  obtain ⟨e0, e1, e2⟩ := heq y (List.mem_range.mp hy) x (List.mem_range.mp hx)
  have hd := pixelDist_zero a b w x y e0 e1 e2
  rcases hch with ⟨h1, _⟩
  rw [hd] at h1
  exact absurd h1 (not_lt.mpr hthr)

/-- Zero-width strips report no changed pixels. -/
theorem stripChangedCount_width_zero (a b : Nat → Nat) (sH : Nat) (thr : ℚ) (aa : Bool) :
    stripChangedCount a b 0 sH thr aa = 0 := by
  unfold stripChangedCount
  simp

/-- When a bitmap of positive area is compared against itself with exact
sampling, every strip reports zero changed pixels: the selected offset is
in bounds with a zero score, and a zero exact-sampled score forces the
aligned strips to agree pixel for pixel. -/
theorem selfStrip_changed_zero (data : Nat → Nat) (w h stripY sh ms : Nat)
    (hw : 0 < w) (hsh : 0 < sh) (hy : stripY < h) :
    stripChangedCount (getStripBuffer data w stripY)
      (getStripBuffer data w
        ((max 0 (min ((h : Int) - ((min sh (h - stripY) : Nat) : Int)) ((stripY : Int) +
          findBestOffset data w h data h stripY sh ms 1 1))).toNat))
      w (min sh (h - stripY)) ((1 : ℚ) / 10) true = 0 := by
  have h0 : inBoundsOffset h stripY (searchStripH h stripY sh) 0 = true := by
    unfold inBoundsOffset searchStripH
    simp only [Bool.and_eq_true, decide_eq_true_eq]
    omega
  have hmem0 : (0 : Int) ∈ offsetRange ms := (mem_offsetRange ms 0).mpr (by omega)
  have hr : findBestOffset data w h data h stripY sh ms 1 1
      = (bestFold (fun dy => inBoundsOffset h stripY (searchStripH h stripY sh) dy)
          (fun dy => offsetSAD data w h data h stripY sh 1 1 dy)
          (offsetRange ms) (0, ⊤)).1 := rfl
  have hcases := bestFold_cases
      (fun dy => inBoundsOffset h stripY (searchStripH h stripY sh) dy)
      (fun dy => offsetSAD data w h data h stripY sh 1 1 dy) (offsetRange ms) (0, ⊤)
  have hmin := bestFold_min
      (fun dy => inBoundsOffset h stripY (searchStripH h stripY sh) dy)
      (fun dy => offsetSAD data w h data h stripY sh 1 1 dy) (offsetRange ms) (0, ⊤)
  dsimp only at hcases hmin
  have hS0 : offsetSAD data w h data h stripY sh 1 1 0 = ((0 : ℚ) : WithTop ℚ) := by
    unfold offsetSAD
    rw [(by omega : ((stripY : Int) + 0).toNat = stripY), Nat.min_self]
    refine computeStripSAD_self_zero data w stripY (searchStripH h stripY sh) h 1 1 hw ?_
    unfold searchStripH
    omega
  have hkey : inBoundsOffset h stripY (searchStripH h stripY sh)
        (findBestOffset data w h data h stripY sh ms 1 1) = true ∧
      offsetSAD data w h data h stripY sh 1 1
        (findBestOffset data w h data h stripY sh ms 1 1) = ((0 : ℚ) : WithTop ℚ) := by
    rw [hr]
    rcases hcases with heq | ⟨hc, hs, _, _⟩
    · exfalso
      have := hmin 0 hmem0 h0
      rw [heq, hS0] at this
      exact absurd (top_le_iff.mp this) (by simp)
    · refine ⟨hc, ?_⟩
      have hle := hmin 0 hmem0 h0
      rw [hS0, hs] at hle
      exact le_antisymm hle (offsetSAD_nonneg _ _ _ _ _ _ _ _ _ _)
  obtain ⟨hCr, hSr⟩ := hkey
  have hext := offsetSAD_zero_extract data w h stripY sh _ hsh hy hCr hSr
  have hb : 0 ≤ (stripY : Int) + findBestOffset data w h data h stripY sh ms 1 1 ∧
      (stripY : Int) + findBestOffset data w h data h stripY sh ms 1 1 +
        min (sh : Int) ((h : Int) - (stripY : Int)) ≤ (h : Int) := by
    simpa [inBoundsOffset, searchStripH, Bool.and_eq_true, decide_eq_true_eq] using hCr
  have halign : (max 0 (min ((h : Int) - ((min sh (h - stripY) : Nat) : Int)) ((stripY : Int) +
      findBestOffset data w h data h stripY sh ms 1 1))).toNat
      = ((stripY : Int) + findBestOffset data w h data h stripY sh ms 1 1).toNat := by
    omega
  rw [halign]
  refine stripChangedCount_zero _ _ _ _ _ _ (by norm_num) ?_
  intro y hy2 x hx2
  have hsd := hext y hy2 x hx2
  obtain ⟨e0, e1, e2⟩ := sampleDiff_eq_zero _ _ _ _ _ _ _ _ hsd
  unfold getStripBuffer
  refine ⟨?_, ?_, ?_⟩
  · rw [(by ring : stripY * w * 4 + (y * w + x) * 4 = ((stripY + y) * w + x) * 4),
        (by ring : ((stripY : Int) + findBestOffset data w h data h stripY sh ms 1 1).toNat * w * 4 +
          (y * w + x) * 4 = ((((stripY : Int) + findBestOffset data w h data h stripY sh ms 1 1).toNat + y) * w + x) * 4)]
    exact e0
  · rw [(by ring : stripY * w * 4 + ((y * w + x) * 4 + 1) = ((stripY + y) * w + x) * 4 + 1),
        (by ring : ((stripY : Int) + findBestOffset data w h data h stripY sh ms 1 1).toNat * w * 4 +
          ((y * w + x) * 4 + 1) = ((((stripY : Int) + findBestOffset data w h data h stripY sh ms 1 1).toNat + y) * w + x) * 4 + 1)]
    exact e1
  · rw [(by ring : stripY * w * 4 + ((y * w + x) * 4 + 2) = ((stripY + y) * w + x) * 4 + 2),
        (by ring : ((stripY : Int) + findBestOffset data w h data h stripY sh ms 1 1).toNat * w * 4 +
          ((y * w + x) * 4 + 2) = ((((stripY : Int) + findBestOffset data w h data h stripY sh ms 1 1).toNat + y) * w + x) * 4 + 2)]
    exact e2

/-- The percent-changed field in terms of the other result fields. -/
theorem analyzePixels_percent_def (before after : Bitmap) (sh ms cx cy : Nat) :
    (analyzePixels before after sh ms cx cy).percentChanged
      = if (analyzePixels before after sh ms cx cy).totalPixels = 0 then none
        else some (((analyzePixels before after sh ms cx cy).changedPixels : ℚ) /
          ((analyzePixels before after sh ms cx cy).totalPixels : ℚ) * 100) := rfl

/-- The total pixel count is the padded canvas area. -/
theorem analyzePixels_total_def (before after : Bitmap) (sh ms cx cy : Nat) :
    (analyzePixels before after sh ms cx cy).totalPixels
      = max before.width after.width * max before.height after.height := rfl

/-- C1 counterexample: on a concrete 3-by-2 bitmap, with strip height 1,
maximum shift 1 and coarse sampling strides 3 and 1, comparing the bitmap
against an identical copy of itself reports two changed pixels and a
nonzero percentage: the second strip aligns to offset -1 because the
coarse grid misses the only differing columns, so the claimed result
changedPixels == 0 and percentChanged == 0 fails. -/
theorem c1_counterexample :
    (analyzePixels bmpC1 bmpC1 1 1 3 1).changedPixels = 2 ∧
    ¬(analyzePixels bmpC1 bmpC1 1 1 3 1).changedPixels = 0 ∧
    (analyzePixels bmpC1 bmpC1 1 1 3 1).percentChanged = some (100 / 3) ∧
    ¬(analyzePixels bmpC1 bmpC1 1 1 3 1).percentChanged = some 0 := by
  with_unfolding_all decide

/-- C1 (amended): with exact coarse sampling (both strides 1), analyzing
any bitmap of positive area against an identical copy of itself yields
changedPixels == 0 and percentChanged == 0, for every positive strip
height and every maximum shift. -/
theorem c1_amended_self_compare (b : Bitmap) (sh ms : Nat) (hsh : 0 < sh)
    (hw : 0 < b.width) (hh : 0 < b.height) :
    (analyzePixels b b sh ms 1 1).changedPixels = 0 ∧
    (analyzePixels b b sh ms 1 1).percentChanged = some 0 := by
  have hchanged : (analyzePixels b b sh ms 1 1).changedPixels = 0 := by
    unfold analyzePixels
    dsimp only
    rw [Nat.max_self, Nat.max_self]
    apply List.sum_eq_zero
    intro t ht
    rcases List.mem_map.mp ht with ⟨stripY, hmemY, rfl⟩
    exact selfStrip_changed_zero (padToSize b b.width b.height).data b.width b.height stripY
      sh ms hw hsh (mem_stepList_lt hmemY)
  refine ⟨hchanged, ?_⟩
  rw [analyzePixels_percent_def, hchanged, analyzePixels_total_def]
  rw [if_neg (by simp only [Nat.max_self]; exact Nat.mul_ne_zero (by omega) (by omega))]
  norm_num

/-- C1 witness: the amended statement applied to a concrete 2-by-2 bitmap
with strip height 3 and maximum shift 2. -/
theorem c1_witness :
    ((0 : Nat) < 3 ∧ 0 < bmpGray.width ∧ 0 < bmpGray.height) ∧
    ((analyzePixels bmpGray bmpGray 3 2 1 1).changedPixels = 0 ∧
     (analyzePixels bmpGray bmpGray 3 2 1 1).percentChanged = some 0) :=
  ⟨⟨by decide, by decide, by decide⟩,
   c1_amended_self_compare bmpGray 3 2 (by decide) (by decide) (by decide)⟩

/-- C2 counterexample: on two zero-area bitmaps, analyzePixels returns
zero total and changed pixels, but percentChanged is the result of the
JavaScript division 0 / 0, i.e. NaN (modelled as `none`) rather than any
well-defined number, and no explicit short-circuit exists in the code. -/
theorem c2_counterexample :
    (analyzePixels zeroBitmap zeroBitmap 400 300 16 8).totalPixels = 0 ∧
    (analyzePixels zeroBitmap zeroBitmap 400 300 16 8).changedPixels = 0 ∧
    (analyzePixels zeroBitmap zeroBitmap 400 300 16 8).percentChanged = none ∧
    ¬(analyzePixels zeroBitmap zeroBitmap 400 300 16 8).percentChanged = some 0 := by
  decide

/-- C2 (amended): when the padded canvas has zero area (both widths zero
or both heights zero), analyzePixels returns zero changed pixels and zero
total pixels without raising, but percentChanged is NaN (`none`, from
0 / 0) rather than a defined value; there is no short-circuit. -/
theorem c2_amended_zero_area (before after : Bitmap) (sh ms cx cy : Nat)
    (h : max before.width after.width = 0 ∨ max before.height after.height = 0) :
    (analyzePixels before after sh ms cx cy).changedPixels = 0 ∧
    (analyzePixels before after sh ms cx cy).totalPixels = 0 ∧
    (analyzePixels before after sh ms cx cy).percentChanged = none := by
  unfold analyzePixels
  dsimp only
  rcases h with hW | hH
  · rw [hW]
    refine ⟨?_, by simp, ?_⟩
    · apply List.sum_eq_zero
      intro t ht
      rcases List.mem_map.mp ht with ⟨stripY, _, rfl⟩
      exact stripChangedCount_width_zero _ _ _ _ _
    · simp
  · rw [hH]
    refine ⟨?_, by simp, ?_⟩
    · simp [stepList]
    · simp

/-- C2 witness: the amended statement applied to two zero-area bitmaps at
strip height 7, maximum shift 5 and exact sampling. -/
theorem c2_witness :
    (max zeroBitmap.width zeroBitmap.width = 0 ∨
      max zeroBitmap.height zeroBitmap.height = 0) ∧
    ((analyzePixels zeroBitmap zeroBitmap 7 5 1 1).changedPixels = 0 ∧
     (analyzePixels zeroBitmap zeroBitmap 7 5 1 1).totalPixels = 0 ∧
     (analyzePixels zeroBitmap zeroBitmap 7 5 1 1).percentChanged = none) :=
  ⟨Or.inl (by decide),
   c2_amended_zero_area zeroBitmap zeroBitmap 7 5 1 1 (Or.inl (by decide))⟩

set_option maxRecDepth 80000 in
/-- C3 counterexample: on two all-black one-pixel-wide buffers of height 2
with the source constants, at strip start row 1 both offsets 0 and -1 are
in bounds and attain the same (zero) score, yet findBestOffset returns -1,
whose absolute magnitude exceeds that of 0 — refuting the claimed
smallest-absolute-magnitude tie-break. -/
theorem c3_counterexample :
    findBestOffset constBlackBuf 1 2 constBlackBuf 2 1 STRIP_HEIGHT MAX_SHIFT COARSE_X COARSE_Y = -1 ∧
    inBoundsOffset 2 1 (searchStripH 2 1 STRIP_HEIGHT) 0 = true ∧
    inBoundsOffset 2 1 (searchStripH 2 1 STRIP_HEIGHT) (-1) = true ∧
    offsetSAD constBlackBuf 1 2 constBlackBuf 2 1 STRIP_HEIGHT COARSE_X COARSE_Y 0 =
      offsetSAD constBlackBuf 1 2 constBlackBuf 2 1 STRIP_HEIGHT COARSE_X COARSE_Y (-1) ∧
    ¬findBestOffset constBlackBuf 1 2 constBlackBuf 2 1 STRIP_HEIGHT MAX_SHIFT COARSE_X COARSE_Y = 0 := by
  with_unfolding_all decide

/-- C3 (amended): whenever offset 0 is in bounds, findBestOffset returns
an in-bounds candidate offset whose score is minimal among all in-bounds
candidates; when several candidates attain the minimum and that minimum
is finite, the least candidate — i.e. the first one in the ascending
scan, which is the most negative, not the one of smallest absolute
magnitude — is returned, a consequence of scanning offsets in ascending
order and replacing the current best only on a strictly lower score. -/
theorem c3_amended_best_offset (beforeData : Nat → Nat) (width beforeH : Nat)
    (afterData : Nat → Nat) (afterH stripY sh ms cx cy : Nat)
    (h0 : inBoundsOffset afterH stripY (searchStripH beforeH stripY sh) 0 = true) :
    inBoundsOffset afterH stripY (searchStripH beforeH stripY sh)
        (findBestOffset beforeData width beforeH afterData afterH stripY sh ms cx cy) = true ∧
    (∀ dy : Int, -(ms : Int) ≤ dy → dy ≤ (ms : Int) →
      inBoundsOffset afterH stripY (searchStripH beforeH stripY sh) dy = true →
      offsetSAD beforeData width beforeH afterData afterH stripY sh cx cy
          (findBestOffset beforeData width beforeH afterData afterH stripY sh ms cx cy) ≤
        offsetSAD beforeData width beforeH afterData afterH stripY sh cx cy dy) ∧
    (∀ dy : Int, -(ms : Int) ≤ dy → dy ≤ (ms : Int) →
      inBoundsOffset afterH stripY (searchStripH beforeH stripY sh) dy = true →
      offsetSAD beforeData width beforeH afterData afterH stripY sh cx cy dy =
        offsetSAD beforeData width beforeH afterData afterH stripY sh cx cy
          (findBestOffset beforeData width beforeH afterData afterH stripY sh ms cx cy) →
      offsetSAD beforeData width beforeH afterData afterH stripY sh cx cy
          (findBestOffset beforeData width beforeH afterData afterH stripY sh ms cx cy) ≠ ⊤ →
      findBestOffset beforeData width beforeH afterData afterH stripY sh ms cx cy ≤ dy) := by
  have hr : findBestOffset beforeData width beforeH afterData afterH stripY sh ms cx cy
      = (bestFold (fun dy => inBoundsOffset afterH stripY (searchStripH beforeH stripY sh) dy)
          (fun dy => offsetSAD beforeData width beforeH afterData afterH stripY sh cx cy dy)
          (offsetRange ms) (0, ⊤)).1 := rfl
  have hcases := bestFold_cases
      (fun dy => inBoundsOffset afterH stripY (searchStripH beforeH stripY sh) dy)
      (fun dy => offsetSAD beforeData width beforeH afterData afterH stripY sh cx cy dy)
      (offsetRange ms) (0, ⊤)
  have hmin := bestFold_min
      (fun dy => inBoundsOffset afterH stripY (searchStripH beforeH stripY sh) dy)
      (fun dy => offsetSAD beforeData width beforeH afterData afterH stripY sh cx cy dy)
      (offsetRange ms) (0, ⊤)
  have hfirst := bestFold_first
      (fun dy => inBoundsOffset afterH stripY (searchStripH beforeH stripY sh) dy)
      (fun dy => offsetSAD beforeData width beforeH afterData afterH stripY sh cx cy dy)
      (offsetRange ms) (0, ⊤) (pairwise_offsetRange ms)
  dsimp only at hcases hmin hfirst
  have hmem0 : (0 : Int) ∈ offsetRange ms := (mem_offsetRange ms 0).mpr (by omega)
  rw [hr]
  refine ⟨?_, ?_, ?_⟩
  · rcases hcases with heq | ⟨hc, _, _, _⟩
    · rw [heq]; exact h0
    · exact hc
  · intro dy h1 h2 hcdy
    have hmem : dy ∈ offsetRange ms := (mem_offsetRange ms dy).mpr ⟨h1, h2⟩
    have hle := hmin dy hmem hcdy
    rcases hcases with heq | ⟨_, hs, _, _⟩
    · rw [heq] at hle ⊢
      have hdy : offsetSAD beforeData width beforeH afterData afterH stripY sh cx cy dy = ⊤ :=
        top_le_iff.mp hle
      rw [hdy]
      exact le_top
    · rw [← hs]
      exact hle
  · intro dy h1 h2 hcdy heqS hne
    have hmem : dy ∈ offsetRange ms := (mem_offsetRange ms dy).mpr ⟨h1, h2⟩
    rcases hcases with heq | ⟨_, hs, _, _⟩
    · exfalso
      have hS0 := hmin 0 hmem0 h0
      rw [heq] at hS0 hne
      exact hne (top_le_iff.mp hS0)
    · refine hfirst dy hmem hcdy ?_ ?_
      · rw [← hs] at heqS
        exact heqS
      · rw [hs]
        exact lt_top_iff_ne_top.mpr hne

/-- C3 witness: the amended statement applied to concrete one-pixel
buffers with strip start 0 and unit parameters. -/
theorem c3_witness :
    inBoundsOffset 1 0 (searchStripH 1 0 1) 0 = true ∧
    (inBoundsOffset 1 0 (searchStripH 1 0 1)
        (findBestOffset constBlackBuf 1 1 constBlackBuf 1 0 1 1 1 1) = true ∧
    (∀ dy : Int, -(1 : Int) ≤ dy → dy ≤ (1 : Int) →
      inBoundsOffset 1 0 (searchStripH 1 0 1) dy = true →
      offsetSAD constBlackBuf 1 1 constBlackBuf 1 0 1 1 1
          (findBestOffset constBlackBuf 1 1 constBlackBuf 1 0 1 1 1 1) ≤
        offsetSAD constBlackBuf 1 1 constBlackBuf 1 0 1 1 1 dy) ∧
    (∀ dy : Int, -(1 : Int) ≤ dy → dy ≤ (1 : Int) →
      inBoundsOffset 1 0 (searchStripH 1 0 1) dy = true →
      offsetSAD constBlackBuf 1 1 constBlackBuf 1 0 1 1 1 dy =
        offsetSAD constBlackBuf 1 1 constBlackBuf 1 0 1 1 1
          (findBestOffset constBlackBuf 1 1 constBlackBuf 1 0 1 1 1 1) →
      offsetSAD constBlackBuf 1 1 constBlackBuf 1 0 1 1 1
          (findBestOffset constBlackBuf 1 1 constBlackBuf 1 0 1 1 1 1) ≠ ⊤ →
      findBestOffset constBlackBuf 1 1 constBlackBuf 1 0 1 1 1 1 ≤ dy)) :=
  ⟨by decide, c3_amended_best_offset constBlackBuf 1 1 constBlackBuf 1 0 1 1 1 1 (by decide)⟩

/- ------------------------------------------------------------------
   Association-list and last-wins machinery for the extractor claims.
   ------------------------------------------------------------------ -/

theorem getLast?_cons_or {α : Type} (a : α) (l : List α) :
    (a :: l).getLast? = l.getLast?.or (some a) := by
  cases l with
  | nil => rfl
  | cons b t =>
      rw [List.getLast?_cons_cons]
      have h := List.getLast?_isSome (l := b :: t) |>.mpr (by simp)
      match hx : (b :: t).getLast? with
      | some v => rfl
      | none => rw [hx] at h; simp at h

theorem getLast?_append_or {α : Type} (l m : List α) :
    (l ++ m).getLast? = m.getLast?.or l.getLast? := by
  induction l with
  | nil => simp
  | cons a t ih =>
      rw [List.cons_append, getLast?_cons_or, ih, getLast?_cons_or, Option.or_assoc]

theorem lookupA_upsertA {V : Type} (m : List (List Char × V)) (k key : List Char) (v : V) :
    lookupA (upsertA m k v) key = if key = k then some v else lookupA m key := by
  induction m with
  | nil =>
      show (if k = key then some v else lookupA ([] : List (List Char × V)) key) = _
      by_cases h : key = k
      · rw [if_pos h.symm, if_pos h]
      · rw [if_neg (fun hh => h hh.symm), if_neg h]
  | cons e t ih =>
      obtain ⟨k2, w⟩ := e
      show lookupA (if k2 = k then (k2, v) :: t else (k2, w) :: upsertA t k v) key = _
      by_cases h2 : k2 = k
      · rw [if_pos h2]
        show (if k2 = key then some v else lookupA t key) = _
        show _ = (if key = k then some v else if k2 = key then some w else lookupA t key)
        by_cases h3 : key = k
        · rw [if_pos (h2.trans h3.symm), if_pos h3]
        · rw [if_neg (fun hh : k2 = key => h3 (hh.symm.trans h2)), if_neg h3,
              if_neg (fun hh : k2 = key => h3 (hh.symm.trans h2))]
      · rw [if_neg h2]
        show (if k2 = key then some w else lookupA (upsertA t k v) key) = _
        show _ = (if key = k then some v else if k2 = key then some w else lookupA t key)
        rw [ih]
        by_cases h3 : k2 = key
        · rw [if_pos h3, if_neg (fun hh : key = k => h2 (h3.trans hh)), if_pos h3]
        · rw [if_neg h3]
          by_cases h4 : key = k
          · rw [if_pos h4, if_pos h4]
          · rw [if_neg h4, if_neg h4, if_neg h3]

theorem lookupA_append {V : Type} (m1 m2 : List (List Char × V)) (key : List Char) :
    lookupA (m1 ++ m2) key = (lookupA m1 key).or (lookupA m2 key) := by
  induction m1 with
  | nil => simp [lookupA]
  | cons e t ih =>
      obtain ⟨k, v⟩ := e
      by_cases h : k = key
      · simp [lookupA, h]
      · simp [lookupA, h, ih]

theorem lookupA_setProp_other (cls prop v cls' : List Char) (h : cls' ≠ cls) :
    ∀ (m : CMap), lookupA (setProp m cls prop v) cls' = lookupA m cls' := by
  intro m
  induction m with
  | nil => rfl
  | cons e t ih =>
      obtain ⟨k, im⟩ := e
      show lookupA ((if k = cls then (k, upsertA im prop v) else (k, im)) :: setProp t cls prop v) cls' = _
      by_cases hkc : k = cls
      · rw [if_pos hkc]
        show (if k = cls' then some (upsertA im prop v) else lookupA (setProp t cls prop v) cls') = _
        have hne : ¬ k = cls' := fun hh => h (hh.symm.trans hkc)
        rw [if_neg hne, ih]
        show _ = (if k = cls' then some im else lookupA t cls')
        rw [if_neg hne]
      · rw [if_neg hkc]
        show (if k = cls' then some im else lookupA (setProp t cls prop v) cls') =
             (if k = cls' then some im else lookupA t cls')
        rw [ih]

theorem lookup2_setProp_other (m : CMap) (cls prop v cls' prop' : List Char)
    (h : cls' ≠ cls) :
    lookup2 (setProp m cls prop v) cls' prop' = lookup2 m cls' prop' := by
  unfold lookup2
  rw [lookupA_setProp_other cls prop v cls' h m]

theorem lookupA_setProp_self (cls prop v : List Char) :
    ∀ (m : CMap), lookupA (setProp m cls prop v) cls
      = (lookupA m cls).map (fun im => upsertA im prop v) := by
  intro m
  induction m with
  | nil => rfl
  | cons e t ih =>
      obtain ⟨k, im⟩ := e
      show lookupA ((if k = cls then (k, upsertA im prop v) else (k, im)) :: setProp t cls prop v) cls = _
      by_cases hk : k = cls
      · rw [if_pos hk]
        show (if k = cls then some (upsertA im prop v) else lookupA (setProp t cls prop v) cls) = _
        rw [if_pos hk]
        show _ = ((if k = cls then some im else lookupA t cls).map (fun im => upsertA im prop v))
        rw [if_pos hk]
        rfl
      · rw [if_neg hk]
        show (if k = cls then some im else lookupA (setProp t cls prop v) cls) = _
        rw [if_neg hk, ih]
        show _ = ((if k = cls then some im else lookupA t cls).map (fun im => upsertA im prop v))
        rw [if_neg hk]

theorem lookup2_ensure (m : CMap) (c cls prop : List Char) :
    lookup2 (ensureClass m c) cls prop = lookup2 m cls prop := by
  unfold ensureClass
  match hx : lookupA m c with
  | some im => rfl
  | none =>
      unfold lookup2
      rw [lookupA_append]
      match hy : lookupA m cls with
      | some im => rfl
      | none =>
          show (lookupA [(c, [])] cls).bind (fun im => lookupA im prop) = none
          show ((if c = cls then some ([] : List (List Char × List Char)) else lookupA [] cls)).bind
            (fun im => lookupA im prop) = none
          by_cases hc : c = cls
          · rw [if_pos hc]; rfl
          · rw [if_neg hc]; rfl

theorem lookupA_ensure_isSome (m : CMap) (c : List Char) :
    (lookupA (ensureClass m c) c).isSome = true := by
  unfold ensureClass
  match hx : lookupA m c with
  | some im => rw [hx]; rfl
  | none =>
      rw [lookupA_append, hx]
      show (Option.or none (if c = c then some ([] : List (List Char × List Char)) else lookupA [] c)).isSome = true
      rw [if_pos rfl]
      rfl

theorem lookupA_setProp_isSome (m : CMap) (cls0 p v cls : List Char)
    (h : (lookupA m cls).isSome = true) :
    (lookupA (setProp m cls0 p v) cls).isSome = true := by
  by_cases hc : cls = cls0
  · subst hc
    rw [lookupA_setProp_self]
    match hx : lookupA m cls with
    | some im => rfl
    | none => rw [hx] at h; cases h
  · rw [lookupA_setProp_other cls0 p v cls hc]
    exact h

theorem foldl_setProp_other (ds : List (List Char × List Char)) (cls0 cls' prop' : List Char)
    (h : cls' ≠ cls0) :
    ∀ m : CMap, lookup2 (ds.foldl (fun m2 pv => setProp m2 cls0 pv.1 pv.2) m) cls' prop'
      = lookup2 m cls' prop' := by
  induction ds with
  | nil => intro m; rfl
  | cons pv ds ih =>
      intro m
      show lookup2 (ds.foldl _ (setProp m cls0 pv.1 pv.2)) cls' prop' = _
      rw [ih (setProp m cls0 pv.1 pv.2), lookup2_setProp_other _ _ _ _ _ _ h]

theorem lookup2_setProp_self (m : CMap) (cls p0 v0 prop : List Char)
    (hm : (lookupA m cls).isSome = true) :
    lookup2 (setProp m cls p0 v0) cls prop
      = if prop = p0 then some v0 else lookup2 m cls prop := by
  unfold lookup2
  rw [lookupA_setProp_self]
  match hx : lookupA m cls with
  | none => rw [hx] at hm; cases hm
  | some im =>
      show (lookupA (upsertA im p0 v0) prop) = _
      rw [lookupA_upsertA]
      by_cases hp : prop = p0
      · rw [if_pos hp, if_pos hp]
      · rw [if_neg hp, if_neg hp]
        rfl

theorem foldl_setProp_last (ds : List (List Char × List Char)) (cls prop : List Char) :
    ∀ m : CMap, (lookupA m cls).isSome = true →
      lookup2 (ds.foldl (fun m2 pv => setProp m2 cls pv.1 pv.2) m) cls prop
        = ((ds.filterMap (fun pv => if pv.1 = prop then some pv.2 else none)).getLast?).or
            (lookup2 m cls prop) := by
  induction ds with
  | nil => intro m _; simp
  | cons pv ds ih =>
      intro m hm
      obtain ⟨p0, v0⟩ := pv
      show lookup2 (ds.foldl _ (setProp m cls p0 v0)) cls prop = _
      rw [ih (setProp m cls p0 v0) (lookupA_setProp_isSome m cls p0 v0 cls hm),
          lookup2_setProp_self m cls p0 v0 prop hm]
      by_cases hp : p0 = prop
      · show _ = ((List.filterMap _ ((p0, v0) :: ds)).getLast?).or _
        rw [List.filterMap_cons]
        dsimp only
        rw [if_pos hp, if_pos hp.symm, getLast?_cons_or, Option.or_assoc]
        have : (Option.some v0).or (lookup2 m cls prop) = some v0 := rfl
        rw [this]
      · show _ = ((List.filterMap _ ((p0, v0) :: ds)).getLast?).or _
        rw [List.filterMap_cons]
        dsimp only
        rw [if_neg hp, if_neg (fun hh => hp hh.symm)]

theorem segsFold_lookup (cp : List (List Char × List Char)) (body cls prop : List Char)
    (L : List (List Char)) :
    ∀ m : CMap,
      lookup2 (L.foldl (fun m1 s =>
        match bareClassName (trimWS s) with
        | none => m1
        | some cls0 =>
            (qualifyingDecls body cp).foldl (fun m2 pv => setProp m2 cls0 pv.1 pv.2)
              (ensureClass m1 cls0)) m) cls prop
      = ((L.flatMap (fun s =>
            if bareClassName (trimWS s) = some cls then
              (qualifyingDecls body cp).filterMap (fun pv =>
                if pv.1 = prop then some pv.2 else none)
            else [])).getLast?).or (lookup2 m cls prop) := by
  induction L with
  | nil => intro m; simp
  | cons s L ih =>
      intro m
      rw [List.foldl_cons, ih, List.flatMap_cons, getLast?_append_or, Option.or_assoc]
      congr 1
      match hb : bareClassName (trimWS s) with
      | none =>
          rw [if_neg (fun hh => Option.noConfusion hh)]
          rfl
      | some cls0 =>
          by_cases hc : cls0 = cls
          · subst hc
            rw [if_pos rfl]
            rw [foldl_setProp_last (qualifyingDecls body cp) cls0 prop (ensureClass m cls0)
                  (lookupA_ensure_isSome m cls0),
                lookup2_ensure]
          · rw [if_neg (fun hh => hc (Option.some.inj hh))]
            rw [foldl_setProp_other (qualifyingDecls body cp) cls0 cls prop
                  (fun hh => hc hh.symm) (ensureClass m cls0),
                lookup2_ensure]
            rfl

theorem rulesFold_lookup (cp : List (List Char × List Char)) (cls prop : List Char)
    (rules : List (List Char × List Char)) :
    ∀ m : CMap,
      lookup2 (rules.foldl (fun m r => applyRule cp m r.1 r.2) m) cls prop
        = (collectDeclsOfRules rules cp cls prop).getLast?.or (lookup2 m cls prop) := by
  induction rules with
  | nil => intro m; simp [collectDeclsOfRules]
  | cons r rules ih =>
      intro m
      rw [List.foldl_cons, ih]
      unfold collectDeclsOfRules
      rw [List.flatMap_cons, getLast?_append_or, Option.or_assoc]
      congr 1
      exact segsFold_lookup cp r.2 cls prop (splitOn ',' r.1) m

theorem qualifying_mem_allowed {body : List Char} {cp : List (List Char × List Char)}
    {pv : List Char × List Char} (h : pv ∈ qualifyingDecls body cp) :
    propAllowed pv.1 = true := by
  rcases List.mem_filterMap.mp h with ⟨decl, _, hf⟩
  match hx : splitAtChar ':' decl with
  | none => rw [hx] at hf; cases hf
  | some nv =>
      obtain ⟨n, v⟩ := nv
      rw [hx] at hf
      dsimp only at hf
      split at hf
      · rename_i hcond
        cases hf
        exact hcond.1
      · cases hf

theorem flatMap_nil_of {α β : Type} (L : List α) (f : α → List β)
    (h : ∀ x ∈ L, f x = []) : L.flatMap f = [] := by
  induction L with
  | nil => rfl
  | cons x t ih =>
      rw [List.flatMap_cons, h x (List.mem_cons_self x t), List.nil_append]
      exact ih (fun y hy => h y (List.mem_cons_of_mem x hy))

theorem propAllowed_iff (p : List Char) : propAllowed p = true ↔ p ∈ CLASS_STYLE_PROPS := by
  simp [propAllowed, List.contains]

theorem replaceVars_match (s : List Char) (props : List (List Char × List Char))
    (name : List Char) (fb : Option (List Char)) (rest : List Char)
    (h : matchVar s = some (name, fb, rest)) :
    replaceVars s props =
      ((lookupA props name).getD
        ((fb.map trimWS).getD (s.take (s.length - rest.length))))
        ++ replaceVars rest props := by
  cases s with
  | nil =>
      rw [show matchVar [] = none from by decide] at h
      cases h
  | cons c cs =>
      rw [replaceVars_eq]
      dsimp only
      rw [h]
      dsimp only
      congr 1
      cases hlk : lookupA props name with
      | some v => rfl
      | none => cases fb <;> rfl

/-- C5: `var()` resolution is a single left-to-right substitution pass
with three cases.  At every regex match, when the captured name is in
the custom-property table the match is replaced by the table value
verbatim (scanning resumes after the matched text, so a `var()` inside
the inserted value is never re-resolved); when the name is absent but a
fallback capture exists, by the trimmed fallback; otherwise the matched
text itself is kept.  Concretely, `var(--c)` with `:root --c: blue`
extracts to `blue`, `var(--missing, green)` to `green`, `var(--missing)`
to the literal `var(--missing)`, and a table value that itself contains
`var(--b)` is inserted unresolved. -/
theorem c5_var_resolution :
    (∀ (s : List Char) (props : List (List Char × List Char)) (name : List Char)
        (fb : Option (List Char)) (rest v : List Char),
        matchVar s = some (name, fb, rest) → lookupA props name = some v →
        replaceVars s props = v ++ replaceVars rest props)
    ∧ (∀ (s : List Char) (props : List (List Char × List Char)) (name f rest : List Char),
        matchVar s = some (name, some f, rest) → lookupA props name = none →
        replaceVars s props = trimWS f ++ replaceVars rest props)
    ∧ (∀ (s : List Char) (props : List (List Char × List Char)) (name rest : List Char),
        matchVar s = some (name, none, rest) → lookupA props name = none →
        replaceVars s props = s.take (s.length - rest.length) ++ replaceVars rest props)
    ∧ lookup2 (parseClassStylesFromCss cssC5a) ("x".toList) ("color".toList)
        = some ("blue".toList)
    ∧ lookup2 (parseClassStylesFromCss cssC5b) ("x".toList) ("color".toList)
        = some ("green".toList)
    ∧ lookup2 (parseClassStylesFromCss cssC5c) ("x".toList) ("color".toList)
        = some ("var(--missing)".toList)
    ∧ lookup2 (parseClassStylesFromCss cssC5d) ("x".toList) ("color".toList)
        = some ("var(--b)".toList) := by
  refine ⟨?_, ?_, ?_, by decide, by decide, by decide, by decide⟩
  · intro s props name fb rest v hm hl
    rw [replaceVars_match s props name fb rest hm, hl]
    rfl
  · intro s props name f rest hm hl
    rw [replaceVars_match s props name (some f) rest hm, hl]
    rfl
  · intro s props name rest hm hl
    rw [replaceVars_match s props name none rest hm, hl]
    rfl

/-- Witness for C5: each of the three resolution cases applied at a
concrete input. -/
theorem c5_witness :
    replaceVars (("var(--c)").toList) [(("--c").toList, ("blue").toList)] = ("blue").toList
    ∧ replaceVars (("var(--m, green)").toList) [] = ("green").toList
    ∧ replaceVars (("var(--m)").toList) [] = ("var(--m)").toList := by
  refine ⟨?_, ?_, ?_⟩
  · have h := (c5_var_resolution).1 (("var(--c)").toList)
      [(("--c").toList, ("blue").toList)] (("--c").toList) none [] (("blue").toList)
      (by decide) (by decide)
    rw [h]
    decide
  · have h := (c5_var_resolution).2.1 (("var(--m, green)").toList) []
      (("--m").toList) (("green").toList) [] (by decide) (by decide)
    rw [h]
    decide
  · have h := (c5_var_resolution).2.2.1 (("var(--m)").toList) []
      (("--m").toList) [] (by decide) (by decide)
    rw [h]
    decide

/-- C6: for every CSS text, every class and every property, the value the
Class Style Extractor records for that class and property equals the
resolved value of the last qualifying declaration of that property for
that class across the whole stylesheet (later rules overwrite earlier
ones), and when the property is not on the fixed allow-list of visually
significant properties no value is recorded at all. -/
theorem c6_allowlist_last_wins (css cls prop : List Char) :
    lookup2 (parseClassStylesFromCss css) cls prop
      = (collectDecls css cls prop).getLast?
    ∧ (prop ∉ CLASS_STYLE_PROPS →
        lookup2 (parseClassStylesFromCss css) cls prop = none) := by
  have hmain : lookup2 (parseClassStylesFromCss css) cls prop
      = (collectDecls css cls prop).getLast? := by
    show lookup2 (classStylesOfRules (walkCssRules (stripComments css))
        (parseCssCustomProps (stripComments css))) cls prop = _
    unfold classStylesOfRules
    rw [rulesFold_lookup]
    show ((collectDecls css cls prop).getLast?).or none = _
    exact Option.or_none
  refine ⟨hmain, fun hnot => ?_⟩
  have hnil : collectDecls css cls prop = [] := by
    unfold collectDecls collectDeclsOfRules
    apply flatMap_nil_of
    intro r _
    dsimp only
    apply flatMap_nil_of
    intro s _
    dsimp only
    by_cases hb : bareClassName (trimWS s) = some cls
    · rw [if_pos hb]
      apply List.filterMap_eq_nil_iff.mpr
      intro pv hpv
      by_cases hp : pv.1 = prop
      · exact absurd (hp ▸ (propAllowed_iff pv.1).mp (qualifying_mem_allowed hpv)) hnot
      · rw [if_neg hp]
    · rw [if_neg hb]
  rw [hmain, hnil]
  rfl

theorem ncFrom_cons (c : Char) (cs : List Char) (d : Nat) :
    ncFrom (c :: cs) d = ((!(stepD c d == 0)) && ncFrom cs (stepD c d)) := rfl

theorem endD_cons (c : Char) (cs : List Char) (d : Nat) :
    endD (c :: cs) d = endD cs (stepD c d) := rfl

theorem findClose_cons (c : Char) (cs : List Char) (d : Nat) :
    findClose (c :: cs) d = 1 + (if stepD c d = 0 then 0 else findClose cs (stepD c d)) := rfl

theorem endD_append (B R : List Char) (d : Nat) :
    endD (B ++ R) d = endD R (endD B d) := by
  simp [endD, List.foldl_append]

theorem ncFrom_append {B R : List Char} {d : Nat} (h1 : ncFrom B d = true)
    (h2 : ncFrom R (endD B d) = true) : ncFrom (B ++ R) d = true := by
  induction B generalizing d with
  | nil => exact h2
  | cons c cs ih =>
      rw [ncFrom_cons, Bool.and_eq_true] at h1
      rw [List.cons_append, ncFrom_cons, Bool.and_eq_true]
      exact ⟨h1.1, ih h1.2 h2⟩

theorem stepD_shift (c : Char) (d k : Nat) (h : ¬ stepD c d = 0) :
    stepD c (d + k) = stepD c d + k := by
  unfold stepD at h ⊢
  by_cases h1 : c = '\x7b'
  · simp only [if_pos h1]
    omega
  · simp only [if_neg h1] at h ⊢
    by_cases h2 : c = '\x7d'
    · simp only [if_pos h2] at h ⊢
      omega
    · simp only [if_neg h2]

theorem ncFrom_shift : ∀ (B : List Char) (d k : Nat), ncFrom B d = true →
    ncFrom B (d + k) = true ∧ endD B (d + k) = endD B d + k := by
  intro B
  induction B with
  | nil => intro d k _; exact ⟨rfl, rfl⟩
  | cons c cs ih =>
      intro d k h
      rw [ncFrom_cons, Bool.and_eq_true] at h
      have hne : ¬ stepD c d = 0 := by simpa using h.1
      have hs := stepD_shift c d k hne
      constructor
      · rw [ncFrom_cons, Bool.and_eq_true, hs]
        refine ⟨by simpa using (by omega : ¬ stepD c d + k = 0), ?_⟩
        exact (ih (stepD c d) k h.2).1
      · rw [endD_cons, endD_cons, hs]
        exact (ih (stepD c d) k h.2).2

theorem findClose_nc : ∀ (B R : List Char) (d : Nat),
    ncFrom B d = true → findClose (B ++ R) d = B.length + findClose R (endD B d) := by
  intro B
  induction B with
  | nil => intro R d _; simp [endD]
  | cons c cs ih =>
      intro R d h
      rw [ncFrom_cons, Bool.and_eq_true] at h
      have hne : ¬ stepD c d = 0 := by simpa using h.1
      rw [List.cons_append, findClose_cons, if_neg hne, ih R (stepD c d) h.2, endD_cons]
      simp only [List.length_cons]
      omega

theorem splitAtChar_pre {sep : Char} : ∀ (p r : List Char), (∀ c ∈ p, ¬ c = sep) →
    splitAtChar sep (p ++ sep :: r) = some (p, r) := by
  intro p
  induction p with
  | nil =>
      intro r _
      show (if sep = sep then some (([] : List Char), r) else _) = _
      rw [if_pos rfl]
  | cons c cs ih =>
      intro r h
      rw [List.cons_append]
      show (if c = sep then some (([] : List Char), cs ++ sep :: r)
            else (splitAtChar sep (cs ++ sep :: r)).map (fun pr => (c :: pr.1, pr.2))) = _
      rw [if_neg (h c (List.mem_cons_self c cs)),
          ih r (fun x hx => h x (List.mem_cons_of_mem c hx))]
      rfl

theorem walk_wrap (B : List Char) (hb : bracesBalanced B) :
    walkCssRules (("@media (x)").toList ++ '\x7b' :: (B ++ ['\x7d'])) = walkCssRules B := by
  obtain ⟨hnc, hend⟩ := hb
  rw [walkCssRules_eq,
      splitAtChar_pre (("@media (x)").toList) (B ++ ['\x7d']) (by decide)]
  dsimp only
  have hfc : findClose (B ++ ['\x7d']) 1 = B.length + 1 := by
    rw [findClose_nc B ['\x7d'] 1 hnc, hend,
        show findClose ['\x7d'] 1 = 1 from by decide]
  rw [hfc]
  have ht : (B ++ ['\x7d']).take (B.length + 1 - 1) = B := by
    rw [Nat.add_sub_cancel]
    simp
  have hd : (B ++ ['\x7d']).drop (B.length + 1) = [] := by
    apply List.eq_nil_of_length_eq_zero
    simp
  rw [ht, hd, if_pos (by decide : (trimWS (("@media (x)").toList)).head? = some '@')]
  rw [show walkCssRules [] = [] from rfl, List.append_nil]

theorem noSlash_nest : ∀ (n : Nat) (T : List Char), noSlash T = true →
    noSlash (nestMedia n T) = true := by
  intro n
  induction n with
  | zero => intro T h; exact h
  | succ n ih =>
      intro T h
      show noSlash (("@media (x)").toList ++ '\x7b' :: (nestMedia n T ++ ['\x7d'])) = true
      unfold noSlash at ih h ⊢
      simp only [List.all_append, List.all_cons, Bool.and_eq_true]
      exact ⟨by decide, by decide, ih T h, by decide⟩

theorem balanced_nest : ∀ (n : Nat) (T : List Char), bracesBalanced T →
    bracesBalanced (nestMedia n T) := by
  intro n
  induction n with
  | zero => intro T h; exact h
  | succ n ih =>
      intro T h
      obtain ⟨hnc, hend⟩ := ih T h
      have h2 : ncFrom (nestMedia n T) 2 = true := by
        have := (ncFrom_shift (nestMedia n T) 1 1 hnc).1
        simpa using this
      have hend2 : endD (nestMedia n T) 2 = 2 := by
        have := (ncFrom_shift (nestMedia n T) 1 1 hnc).2
        rw [hend] at this
        simpa using this
      constructor
      · show ncFrom (("@media (x)").toList ++ '\x7b' :: (nestMedia n T ++ ['\x7d'])) 1 = true
        apply ncFrom_append (by decide)
        show ncFrom ('\x7b' :: (nestMedia n T ++ ['\x7d'])) 1 = true
        rw [ncFrom_cons, Bool.and_eq_true]
        refine ⟨by decide, ?_⟩
        show ncFrom (nestMedia n T ++ ['\x7d']) 2 = true
        apply ncFrom_append h2
        rw [hend2]
        decide
      · show endD (("@media (x)").toList ++ '\x7b' :: (nestMedia n T ++ ['\x7d'])) 1 = 1
        rw [endD_append]
        show endD ('\x7b' :: (nestMedia n T ++ ['\x7d'])) 1 = 1
        rw [endD_cons]
        show endD (nestMedia n T ++ ['\x7d']) 2 = 1
        rw [endD_append, hend2]
        decide

theorem walk_nest (T : List Char) (hb : bracesBalanced T) :
    ∀ n, walkCssRules (nestMedia n T) = walkCssRules T := by
  intro n
  induction n with
  | zero => rfl
  | succ n ih =>
      show walkCssRules (("@media (x)").toList ++ '\x7b' :: (nestMedia n T ++ ['\x7d'])) = _
      rw [walk_wrap (nestMedia n T) (balanced_nest n T hb), ih]

theorem stripComments_id : ∀ (t : List Char), noSlash t = true → stripComments t = t := by
  intro t
  induction t with
  | nil => intro _; rfl
  | cons c cs ih =>
      intro h
      unfold noSlash at h
      rw [List.all_cons, Bool.and_eq_true] at h
      have hc : ¬ c = '/' := by simpa using h.1
      rw [stripComments_eq]
      dsimp only
      rw [if_neg (fun hh => hc hh.1), ih h.2]

/-- C4: wrapping a rule text in an at-rule block, to any nesting depth,
does not change the Class Style Extractor's output: for comment-free,
brace-balanced rule text the walker re-walks each at-rule body and
extracts exactly the rules of the unconditioned text. -/
theorem c4_nesting_invariance (T : List Char) (n : Nat)
    (hb : bracesBalanced T) (hs : noSlash T = true) :
    parseClassStylesFromCss (nestMedia n T) = parseClassStylesFromCss T := by
  unfold parseClassStylesFromCss parseCssCustomProps
  dsimp only
  rw [stripComments_id (nestMedia n T) (noSlash_nest n T hs), stripComments_id T hs,
      walk_nest T hb n]

/-- Witness for C4: the concrete bare class rule `.x { color:red }`
is brace-balanced and comment-free, and wrapped in two nested at-rule
blocks it extracts identically to the top-level rule. -/
theorem c4_witness :
    bracesBalanced cssC4 ∧ noSlash cssC4 = true
    ∧ parseClassStylesFromCss (nestMedia 2 cssC4) = parseClassStylesFromCss cssC4 :=
  ⟨⟨by decide, by decide⟩, by decide,
    c4_nesting_invariance cssC4 2 ⟨by decide, by decide⟩ (by decide)⟩

/-- C9: the rule walker always terminates and never raises.  Whenever
the scan finds an opening brace, both the block body handed to the
recursive at-rule re-walk and the remaining text after the block are
strictly shorter than the input text, so the walk makes progress on
every input; on malformed CSS with an unmatched brace the scan stops at
the end of the text and yields the partial rule with the final character
dropped, exactly as `text.slice(blockStart + 1, j - 1)` does. -/
theorem c9_walker_termination :
    (∀ (t pre rest : List Char), splitAtChar '\x7b' t = some (pre, rest) →
        (rest.take (findClose rest 1 - 1)).length < t.length
        ∧ (rest.drop (findClose rest 1)).length < t.length)
    ∧ walkCssRules ((".a\x7bcolor:red").toList) = [((".a").toList, ("color:re").toList)] := by
  constructor
  · intro t pre rest h
    have hp := splitAtChar_parts h
    constructor
    · simp only [List.length_take]
      omega
    · simp only [List.length_drop]
      omega
  · decide

/-- Witness for C9: the strict-decrease property evaluated on a concrete
text with one block. -/
theorem c9_witness :
    splitAtChar '\x7b' (("x\x7by\x7dz").toList) = some (("x").toList, ("y\x7dz").toList)
    ∧ ((("y\x7dz").toList).take (findClose (("y\x7dz").toList) 1 - 1)).length
        < (("x\x7by\x7dz").toList).length
    ∧ ((("y\x7dz").toList).drop (findClose (("y\x7dz").toList) 1)).length
        < (("x\x7by\x7dz").toList).length := by
  refine ⟨by decide, ?_, ?_⟩
  · exact (c9_walker_termination.1 (("x\x7by\x7dz").toList) (("x").toList)
      (("y\x7dz").toList) (by decide)).1
  · exact (c9_walker_termination.1 (("x\x7by\x7dz").toList) (("x").toList)
      (("y\x7dz").toList) (by decide)).2

/-- Witness for C6: `width` is not allow-listed and indeed produces no
entry, while the allow-listed `color` entry equals the last collected
declaration value. -/
theorem c6_witness :
    ("width".toList) ∉ CLASS_STYLE_PROPS
    ∧ lookup2 (parseClassStylesFromCss cssC6) ("x".toList) ("width".toList) = none
    ∧ lookup2 (parseClassStylesFromCss cssC6) ("x".toList) ("color".toList)
        = (collectDecls cssC6 ("x".toList) ("color".toList)).getLast? := by
  refine ⟨by decide, ?_, ?_⟩
  · exact (c6_allowlist_last_wins cssC6 ("x".toList) ("width".toList)).2 (by decide)
  · exact (c6_allowlist_last_wins cssC6 ("x".toList) ("color".toList)).1

theorem mem_insDesc {c x : CssClassChange} : ∀ {l : List CssClassChange},
    c ∈ insDesc x l ↔ c = x ∨ c ∈ l := by
  intro l
  induction l with
  | nil => simp [insDesc]
  | cons y t ih =>
      unfold insDesc
      by_cases h : impact y ≤ impact x
      · rw [if_pos h]
        simp
      · rw [if_neg h]
        simp only [List.mem_cons, ih]
        tauto

theorem mem_sortImpact {c : CssClassChange} : ∀ {l : List CssClassChange},
    c ∈ sortImpact l ↔ c ∈ l := by
  intro l
  induction l with
  | nil => exact Iff.rfl
  | cons x t ih =>
      unfold sortImpact
      rw [mem_insDesc]
      simp [ih]

theorem diffPropRows_mem {bProps aProps : List (List Char × List Char)}
    {r : CssPropertyChange} (h : r ∈ diffPropRows bProps aProps) :
    ¬ (lookupA bProps r.property).getD [] = (lookupA aProps r.property).getD [] := by
  rcases List.mem_filterMap.mp h with ⟨prop, _, hf⟩
  dsimp only at hf
  by_cases hv : (lookupA bProps prop).getD [] = (lookupA aProps prop).getD []
  · rw [if_pos hv] at hf
    cases hf
  · rw [if_neg hv] at hf
    cases hf
    exact hv

/-- C7: counterexample to the added/removed classification of one-sided
classes.  The class `a` is present only in the second style map, with
the allow-listed property `color` declared (its `var()` reference
resolves to the empty fallback), yet the class style diff emits nothing:
the missing side and the empty declared value both default to the empty
string, compare equal, and the class is dropped — it is not reported as
an `added` class carrying its properties, and no `added`/`removed`/
`changed` classification exists in the output type at all. -/
theorem c7_counterexample :
    lookupA (parseClassStylesFromCss cssC7x) (("a").toList)
      = some [((("color").toList), [])]
    ∧ diffCssClasses (parseClassStylesFromCss []) (parseClassStylesFromCss cssC7x)
        (fun _ => 0) (fun _ => 0) = [] := by
  constructor
  · decide
  · decide

/-- C7 (amended): the class style diff emits one flat list without any
added/removed/changed classification.  Every emitted entry's rows are
exactly the differing-property rows over the union of the two property
maps of that class (missing sides defaulting to the empty string), the
row list is non-empty, and every row records a genuine value difference;
a class present in only one map is reported exactly when some of its
values is non-empty, with the missing side shown as `(not declared)`, as
the concrete one-sided `color: red` class shows. -/
theorem c7_amended :
    (∀ (bs as : CMap) (countB countA : List Char → Nat) (c : CssClassChange),
        c ∈ diffCssClasses bs as countB countA →
        c.changedProperties
            = diffPropRows ((lookupA bs c.className).getD []) ((lookupA as c.className).getD [])
        ∧ ¬ c.changedProperties = []
        ∧ ∀ r ∈ c.changedProperties,
            ¬ (lookupA ((lookupA bs c.className).getD []) r.property).getD []
              = (lookupA ((lookupA as c.className).getD []) r.property).getD [])
    ∧ diffCssClasses [] [(("a").toList, [(("color").toList, ("red").toList)])]
        (fun _ => 0) (fun _ => 0)
      = [{ className := ("a").toList,
           changedProperties := [{ property := ("color").toList,
                                   before := notDeclared,
                                   after := ("red").toList }],
           elementCountBefore := 0, elementCountAfter := 0 }] := by
  constructor
  · intro bs as countB countA c hc
    unfold diffCssClasses at hc
    have h1 : c ∈ sortImpact ((dedupFirst (bs.map Prod.fst ++ as.map Prod.fst)).filterMap _) :=
      List.take_subset 60 _ hc
    have h2 := mem_sortImpact.mp h1
    rcases List.mem_filterMap.mp h2 with ⟨cls, _, hf⟩
    dsimp only at hf
    by_cases hrows : diffPropRows ((lookupA bs cls).getD []) ((lookupA as cls).getD []) = []
    · rw [if_pos hrows] at hf
      cases hf
    · rw [if_neg hrows] at hf
      cases hf
      refine ⟨rfl, hrows, ?_⟩
      intro r hr
      exact diffPropRows_mem hr
  · decide

/-- Witness for C7 (amended): the one-sided `color: red` class produces
an entry whose row list is non-empty and records a real difference. -/
theorem c7_witness :
    ¬ (({ className := ("a").toList,
          changedProperties := [{ property := ("color").toList,
                                  before := notDeclared,
                                  after := ("red").toList }],
          elementCountBefore := 0, elementCountAfter := 0 } : CssClassChange).changedProperties)
      = [] := by
  have h := (c7_amended).1 [] [(("a").toList, [(("color").toList, ("red").toList)])]
    (fun _ => 0) (fun _ => 0)
    { className := ("a").toList,
      changedProperties := [{ property := ("color").toList,
                              before := notDeclared,
                              after := ("red").toList }],
      elementCountBefore := 0, elementCountAfter := 0 }
    (by decide)
  exact h.2.1

theorem compareFold_inv : ∀ (atts : List (List Char × Elem × Elem))
    (seen : List (List Char)) (changes : List ElementClassChange),
    (∀ c ∈ changes, seen.contains c.identifier = true) →
    changes.Pairwise (fun x y => ¬ x.identifier = y.identifier) →
    (∀ c ∈ changes, ¬ (c.classesAdded = [] ∧ c.classesRemoved = [])) →
    (∀ c ∈ (atts.foldl compareStep (seen, changes)).2,
        ¬ (c.classesAdded = [] ∧ c.classesRemoved = []))
    ∧ (atts.foldl compareStep (seen, changes)).2.Pairwise
        (fun x y => ¬ x.identifier = y.identifier) := by
  intro atts
  induction atts with
  | nil => intro seen changes _ h2 h3; exact ⟨h3, h2⟩
  | cons att t ih =>
      intro seen changes h1 h2 h3
      rw [List.foldl_cons]
      by_cases hs : seen.contains att.1 = true
      · have hstep : compareStep (seen, changes) att = (seen, changes) := by
          unfold compareStep
          dsimp only
          rw [if_pos hs]
        rw [hstep]
        exact ih seen changes h1 h2 h3
      · by_cases hd : (classTokens att.2.2.classAttr).filter
              (fun c => ¬ (classTokens att.2.1.classAttr).contains c) = []
            ∧ (classTokens att.2.1.classAttr).filter
              (fun c => ¬ (classTokens att.2.2.classAttr).contains c) = []
        · have hstep : compareStep (seen, changes) att = (att.1 :: seen, changes) := by
            unfold compareStep
            dsimp only
            rw [if_neg hs, if_pos hd]
          rw [hstep]
          apply ih (att.1 :: seen) changes ?_ h2 h3
          intro c hc
          rw [List.contains_cons, h1 c hc, Bool.or_true]
        · have hstep : compareStep (seen, changes) att
              = (att.1 :: seen, changes ++
                  [{ identifier := att.1, tag := att.2.1.tag,
                     classesBefore := classTokens att.2.1.classAttr,
                     classesAfter := classTokens att.2.2.classAttr,
                     classesAdded := (classTokens att.2.2.classAttr).filter
                       (fun c => ¬ (classTokens att.2.1.classAttr).contains c),
                     classesRemoved := (classTokens att.2.1.classAttr).filter
                       (fun c => ¬ (classTokens att.2.2.classAttr).contains c) }]) := by
            unfold compareStep
            dsimp only
            rw [if_neg hs, if_neg hd]
          rw [hstep]
          apply ih (att.1 :: seen) _ ?_ ?_ ?_
          · intro c hc
            rcases List.mem_append.mp hc with hcl | hcr
            · rw [List.contains_cons, h1 c hcl, Bool.or_true]
            · have hce := List.mem_singleton.mp hcr
              subst hce
              simp [List.contains_cons]
          · rw [List.pairwise_append]
            refine ⟨h2, List.pairwise_singleton _ _, ?_⟩
            intro x hx y hy
            have hyr := List.mem_singleton.mp hy
            subst hyr
            intro hxy
            have hcx := h1 x hx
            rw [hxy] at hcx
            exact hs hcx
          · intro c hc
            rcases List.mem_append.mp hc with hcl | hcr
            · exact h3 c hcl
            · have hce := List.mem_singleton.mp hcr
              subst hce
              exact hd

/-- C8: counterexample to "semantic tags are matched only when the
element was not already matched by id".  A single `nav` element carrying
`id="n"` in both documents is compared twice — once by the id pass under
`#n` and once by the semantic tag pass under `<nav>` — because the
`seen` set deduplicates identifier strings, not elements, and the tag
pass does not exclude id-matched elements. -/
theorem c8_counterexample :
    diffElementClasses [navElemB] [navElemA]
      = [{ identifier := '#' :: ("n").toList, tag := ("nav").toList,
           classesBefore := [("x").toList], classesAfter := [("y").toList],
           classesAdded := [("y").toList], classesRemoved := [("x").toList] },
         { identifier := '<' :: (("nav").toList ++ ['>']), tag := ("nav").toList,
           classesBefore := [("x").toList], classesAfter := [("y").toList],
           classesAdded := [("y").toList], classesRemoved := [("x").toList] }] := by
  decide

/-- C8 (amended): the element class diff deduplicates by identifier
string — the output never repeats an identifier, and every emitted entry
has a non-empty class symmetric difference — and the id pass pairs a
document-1 element with the first document-2 element bearing the same
non-empty id.  But the semantic tag pass runs unconditionally on the
first occurrence of each tag, so one element may be reported twice,
under its `#id` identifier and again under its `<tag>` identifier. -/
theorem c8_amended :
    (∀ (bdoc adoc : List Elem),
        (diffElementClasses bdoc adoc).Pairwise (fun x y => ¬ x.identifier = y.identifier))
    ∧ (∀ (bdoc adoc : List Elem) (c : ElementClassChange),
        c ∈ diffElementClasses bdoc adoc →
        ¬ (c.classesAdded = [] ∧ c.classesRemoved = []))
    ∧ (∀ (bdoc adoc : List Elem) (id : List Char) (be ae : Elem),
        ('#' :: id, be, ae) ∈ idAttempts bdoc adoc →
        ¬ id = [] ∧ adoc.find? (fun e => e.idAttr = some id) = some ae) := by
  refine ⟨?_, ?_, ?_⟩
  · intro bdoc adoc
    have h := compareFold_inv (idAttempts bdoc adoc ++ tagAttempts bdoc adoc) [] []
      (fun c hc => absurd hc (List.not_mem_nil c)) List.Pairwise.nil
      (fun c hc => absurd hc (List.not_mem_nil c))
    exact h.2.sublist (List.take_sublist 40 _)
  · intro bdoc adoc c hc
    have h := compareFold_inv (idAttempts bdoc adoc ++ tagAttempts bdoc adoc) [] []
      (fun c hc => absurd hc (List.not_mem_nil c)) List.Pairwise.nil
      (fun c hc => absurd hc (List.not_mem_nil c))
    exact h.1 c (List.take_subset 40 _ hc)
  · intro bdoc adoc id be ae hmem
    rcases List.mem_filterMap.mp hmem with ⟨be', _, hf⟩
    match hid : be'.idAttr with
    | none =>
        rw [hid] at hf
        cases hf
    | some id' =>
        rw [hid] at hf
        dsimp only at hf
        by_cases hz : id' = []
        · rw [if_pos hz] at hf
          cases hf
        · rw [if_neg hz] at hf
          match hfind : adoc.find? (fun e => e.idAttr = some id') with
          | none =>
              rw [hfind] at hf
              cases hf
          | some ae' =>
              rw [hfind] at hf
              injection hf with hf2
              injection hf2 with hA hBC
              injection hBC with hB hC
              injection hA with _ hid2
              subst hid2
              subst hC
              exact ⟨hz, hfind⟩

/-- Witness for C8 (amended): the id-pass entry of the nav example has a
non-empty symmetric difference, and its partner is the first (only)
document-2 element with id `n`. -/
theorem c8_witness :
    ¬ (({ identifier := '#' :: ("n").toList, tag := ("nav").toList,
          classesBefore := [("x").toList], classesAfter := [("y").toList],
          classesAdded := [("y").toList], classesRemoved := [("x").toList] }
        : ElementClassChange).classesAdded = []
       ∧ ({ identifier := '#' :: ("n").toList, tag := ("nav").toList,
            classesBefore := [("x").toList], classesAfter := [("y").toList],
            classesAdded := [("y").toList], classesRemoved := [("x").toList] }
          : ElementClassChange).classesRemoved = [])
    ∧ [navElemA].find? (fun e => e.idAttr = some (("n").toList)) = some navElemA := by
  constructor
  · exact (c8_amended).2.1 [navElemB] [navElemA] _ (by decide)
  · exact ((c8_amended).2.2 [navElemB] [navElemA] (("n").toList) navElemB navElemA
      (by decide)).2

theorem linkWalk_zip (adoc : List Anchor) : ∀ (bl : List Anchor) (i : Nat),
    linkWalk adoc i bl = linkZipWalk i (bl.zip (adoc.drop i)) := by
  intro bl
  induction bl with
  | nil => intro i; rfl
  | cons b bs ih =>
      intro i
      show (match adoc[i]? with
            | none => []
            | some a => (ruleOpt i b a).toList) ++ linkWalk adoc (i + 1) bs = _
      match ha : adoc[i]? with
      | none =>
          have hlen : adoc.length ≤ i := List.getElem?_eq_none_iff.mp ha
          rw [List.drop_eq_nil_of_le hlen, List.zip_nil_right]
          show [] ++ linkWalk adoc (i + 1) bs = linkZipWalk i []
          rw [List.nil_append, ih (i + 1),
              List.drop_eq_nil_of_le (Nat.le_succ_of_le hlen), List.zip_nil_right]
          rfl
      | some a =>
          have hlt : i < adoc.length := (List.getElem?_eq_some.mp ha).1
          have hdrop : adoc.drop i = a :: adoc.drop (i + 1) := by
            rw [List.drop_eq_getElem_cons hlt, (List.getElem?_eq_some.mp ha).2]
          rw [hdrop, List.zip_cons_cons]
          show (ruleOpt i b a).toList ++ linkWalk adoc (i + 1) bs = _
          rw [ih (i + 1)]
          rfl

/-- C10: in the content diff's link comparison, the n-th href-bearing
anchor of document 1 is paired with the n-th anchor of any kind in
document 2 — the walk with `$a('a').eq(i)` equals the positional zip of
document 1's `a[href]` elements against all of document 2's anchors.
Consequently an href-less anchor early in document 2 shifts the pairing:
concretely, a single `/about` link diffed against a document whose first
anchor has no href reports the change `/about` → `""` even though
document 2 still contains an `/about` link at the next position. -/
theorem c10_anchor_pairing :
    (∀ (bdoc adoc : List Anchor), linkChanges bdoc adoc = pairedLinksSpec bdoc adoc)
    ∧ linkChanges [{ href := some (("/about").toList), text := ("About").toList }]
        [{ href := none, text := ("Menu").toList },
         { href := some (("/about").toList), text := ("About").toList }]
      = [{ ctype := ("link").toList,
           location := 'a' :: ' ' :: '"' :: (("About").toList ++ ['"']),
           before := ("/about").toList, after := [] }] := by
  constructor
  · intro bdoc adoc
    unfold linkChanges pairedLinksSpec
    exact linkWalk_zip adoc (bdoc.filter (fun x => x.href.isSome)) 0
  · decide

end OhSee

